import Mathlib

/-!
Verification development for the change-detection core of `static.py`,
a small static site generator.

The embedding below translates, from the source:
  * the fingerprint data model (`mod_date`/`hash` records of `history.json`),
  * `build_dep_tree`, `path_toss`, `_get_changes`, the prerequisite loop of
    `get_changes`, `populate_changes`/`folder_changes`,
  * `process_folder_changes` and the per-category persistence pass of
    `generate`,
  * the `create` scaffolding command.

Modelling conventions:
  * Paths are strings using `\` as separator — the program normalises
    prerequisite paths with `p.replace('/', '\\')` and was written for a
    filesystem where glob results use the same separator, so a single
    separator is used consistently.
  * Python dicts are association lists (`lookupA` / `insertA` / `popA`);
    insertion order is preserved exactly as dicts preserve it.
  * A raised exception (`KeyError` from a dict subscript, `IndexError` from
    `path_toss`) is modelled by an overall `none` result.
  * The MD5 digest is modelled by an abstract injective digest function on
    file contents; MD5 collisions are outside the model.
  * File modification times are naturals; only their ordering is used.
-/

namespace StaticPy

/-- A fingerprint record as produced by `_get_changes` and stored in
`history.json`: `{"mod_date": ..., "hash": ...}`. -/
structure FileInfo where
  mod_date : Nat
  hash : String
deriving DecidableEq, Repr

/-- The observable data of one file on disk: its modification time
(`os.path.getmtime`) and its byte content (read for hashing). -/
structure FileData where
  mtime : Nat
  content : String
deriving DecidableEq, Repr

/-- The filesystem as the scanner observes it: a finite map from path to
file data.  `os.path.isfile p` holds exactly when `p` is a key. -/
structure FS where
  files : List (String × FileData)
deriving DecidableEq, Repr

/-- Python dict lookup `d[k]` (the `some` case) or a failed lookup
(`none`, which at use sites models either `KeyError` or a `not in` test). -/
def lookupA {α : Type} : List (String × α) → String → Option α
  | [], _ => none
  | (k, v) :: rest, key => if k = key then some v else lookupA rest key

/-- Python dict assignment `d[k] = v`: overwrite the binding in place if the
key is present, otherwise append a new binding. -/
def insertA {α : Type} : List (String × α) → String → α → List (String × α)
  | [], k, v => [(k, v)]
  | (k', v') :: rest, k, v =>
    if k' = k then (k, v) :: rest else (k', v') :: insertA rest k v

/-- Python dict `d.pop(k)`: remove the binding of `k`; `none` models the
`KeyError` raised when `k` is absent. -/
def popA {α : Type} : List (String × α) → String → Option (List (String × α))
  | [], _ => none
  | (k', v') :: rest, k =>
    if k' = k then some rest else (popA rest k).map (fun r => (k', v') :: r)

/-- `hashlib.md5(open(path, 'rb').read()).hexdigest()`, modelled as an
abstract injective digest of the byte content. -/
def md5 (content : String) : String := content

/-- One category's section of `history.json`: relative path to fingerprint. -/
abbrev FolderInfo := List (String × FileInfo)

/-- The whole persisted store `history.json`: category name to section. -/
abbrev Store := List (String × FolderInfo)

/-- `FolderChanges = Tuple[FolderInfo, Set[str]]`: the modified map and the
set of deleted relative paths. -/
abbrev FolderChanges := FolderInfo × List String

/-- `p.replace('/', '\\')`. -/
def normSlash (s : String) : String :=
  String.mk (s.data.map (fun c => if c = '/' then '\\' else c))

/-- A recursive glob pattern of the shape `dir ++ "/**/*" ++ ext`: the only
shape the program builds (`f"{name}/**/*{ext}"`) and the shape used by the
dependency declarations of `meta.json`. -/
structure GlobPattern where
  dir : String
  ext : String
deriving DecidableEq, Repr

/-- Whether the recursive glob `dir/**/*ext` matches `path` (with paths
separator-normalised): the path lies below `dir` and ends in `ext`. -/
def globMatch (p : GlobPattern) (path : String) : Bool :=
  (p.dir ++ "\\").data.isPrefixOf path.data && p.ext.data.isSuffixOf path.data

/-- `glob.iglob(pattern, recursive=True)` over the modelled filesystem. -/
def get_files (fs : FS) (p : GlobPattern) : List String :=
  (fs.files.map Prod.fst).filter (fun path => globMatch p path)

/-- `os.path.relpath(file, name)` for a file lying below `name`. -/
def relpathUnder (name file : String) : String :=
  String.mk (file.data.drop (name.data.length + 1))

/-- Character walk of `path_toss`: consume characters until the first
separator; `none` when the input runs out (the `IndexError` case). -/
def pathTossAux : List Char → List Char → Option (List Char × List Char)
  | _, [] => none
  | tossed, c :: rest =>
    if c = '\\' ∨ c = '/' then some (tossed.reverse, rest)
    else pathTossAux (c :: tossed) rest

/-- `path_toss`: split a path at its first separator into
`(leading component, remainder)`; `none` models the `IndexError` raised
when the path contains no separator. -/
def path_toss (path : String) : Option (String × String) :=
  (pathTossAux [] path.data).map (fun pr => (String.mk pr.1, String.mk pr.2))

/-- The `deps` table of `meta.json`: output glob pattern to its ordered
list of prerequisite paths. -/
structure MetaCfg where
  deps : List (GlobPattern × List String)
deriving Repr

/-- Inner loop of `build_dep_tree`:
`for p in prereq: dependent[p].update(get_files(pattern))` (with
`p = p.replace('/', '\\')`, and a fresh set when the key is new). -/
def dep_tree_add (fs : FS) (pattern : GlobPattern)
    (dependent : List (String × List String)) :
    List String → List (String × List String)
  | [] => dependent
  | p :: ps =>
    let q := normSlash p
    let dependent' :=
      match lookupA dependent q with
      | some s => insertA dependent q (s ++ get_files fs pattern)
      | none => insertA dependent q (get_files fs pattern)
    dep_tree_add fs pattern dependent' ps

/-- Outer loop of `build_dep_tree` over `meta["deps"].items()`. -/
def build_dep_go (fs : FS) (dependent : List (String × List String)) :
    List (GlobPattern × List String) → List (String × List String)
  | [] => dependent
  | (pattern, prereq) :: rest =>
    build_dep_go fs (dep_tree_add fs pattern dependent prereq) rest

/-- `build_dep_tree(meta)`: the reverse index from prerequisite path to the
set of concrete dependent files obtained by expanding every declared
pattern against the filesystem. -/
def build_dep_tree (fs : FS) (meta : MetaCfg) : List (String × List String) :=
  build_dep_go fs [] meta.deps

/-- `_get_changes(path, file_past)`: `none` models the empty dict `{}`
returned both for a missing file and for an unchanged file. -/
def _get_changes (fs : FS) (path : String) (file_past : Option FileInfo) :
    Option FileInfo :=
  match lookupA fs.files path with
  | none => none
  | some fd =>
    match file_past with
    | none => some { mod_date := fd.mtime, hash := md5 fd.content }
    | some past =>
      if past.mod_date < fd.mtime then
        if past.hash ≠ md5 fd.content then
          some { mod_date := fd.mtime, hash := md5 fd.content }
        else none
      else none

/-- The mutable state threaded through the prerequisite loop of
`get_changes`: the forced set `recompile`, the fingerprints of changed
prerequisites, and the set of changed prerequisites. -/
structure PrereqState where
  recompile : List String
  prereq_info : List (String × FileInfo)
  prereq_changed : List String
deriving DecidableEq, Repr

/-- `prereq_history = {} if prereq in recompile else history[folder][relpath]`:
the outer `none` models the `KeyError` from either subscript. -/
def prereq_history_of (history : Store) (st : PrereqState) (prereq : String)
    (fr : String × String) : Option (Option FileInfo) :=
  if st.recompile.contains prereq then some none
  else
    match lookupA history fr.1 with
    | none => none
    | some finfo =>
      match lookupA finfo fr.2 with
      | none => none
      | some past => some (some past)

/-- The prerequisite loop of `get_changes` over `dep_tree.items()`:
`none` models an uncaught `IndexError` (from `path_toss`) or `KeyError`
(from `history[folder][relpath]`). -/
def prereq_scan (fs : FS) (history : Store) :
    PrereqState → List (String × List String) → Option PrereqState
  | st, [] => some st
  | st, (prereq, dependents) :: rest =>
    match path_toss prereq with
    | none => none
    | some fr =>
      match prereq_history_of history st prereq fr with
      | none => none
      | some prereq_history =>
        match _get_changes fs prereq prereq_history with
        | some pc =>
          prereq_scan fs history
            { recompile := st.recompile ++ dependents,
              prereq_info := insertA st.prereq_info prereq pc,
              prereq_changed := st.prereq_changed ++ [prereq] } rest
        | none => prereq_scan fs history st rest

/-- One iteration of `populate_changes` for a single globbed `file`,
threading the `(changes, past_set)` state; `none` models a `KeyError`. -/
def populate_changes (fs : FS) (history : Store) (prereqs : List String)
    (ps : PrereqState) (name : String) (past : FolderInfo)
    (st : FolderInfo × List String) (file : String) :
    Option (FolderInfo × List String) :=
  let changes := st.1
  let file_name := relpathUnder name file
  let new_file := ¬ st.2.contains file_name
  let past_set := if new_file then st.2 else st.2.erase file_name
  if prereqs.contains file then
    if ps.prereq_changed.contains file then
      match lookupA ps.prereq_info file with
      | some info => some (insertA changes file_name info, past_set)
      | none => none
    else some (changes, past_set)
  else if ¬ ps.recompile.contains file ∨ new_file then
    let file_past : Option FileInfo :=
      if new_file ∨ ps.recompile.contains file then none
      else lookupA past file_name
    match _get_changes fs file file_past with
    | some fc => some (insertA changes file_name fc, past_set)
    | none => some (changes, past_set)
  else
    match lookupA history name with
    | none => none
    | some hist_name =>
      match lookupA hist_name file_name with
      | none => none
      | some finfo => some (insertA changes file_name finfo, past_set)

/-- The loop of the `recursively_act_on_dir` decorator: run
`populate_changes` over every globbed file in order. -/
def scan_files (fs : FS) (history : Store) (prereqs : List String)
    (ps : PrereqState) (name : String) (past : FolderInfo) :
    (FolderInfo × List String) → List String → Option (FolderInfo × List String)
  | st, [] => some st
  | st, file :: rest =>
    match populate_changes fs history prereqs ps name past st file with
    | some st' => scan_files fs history prereqs ps name past st' rest
    | none => none

/-- `folder_changes(name, ext)`: seed `past_set` from the stored section
(or empty under `force_recompile`), scan, and return
`(changes, past_set)`. -/
def folder_changes (fs : FS) (history : Store) (prereqs : List String)
    (ps : PrereqState) (force_recompile : Bool) (name ext : String) :
    Option FolderChanges :=
  match (if force_recompile then some [] else lookupA history name) with
  | none => none
  | some past =>
    scan_files fs history prereqs ps name past ([], past.map Prod.fst)
      (get_files fs ⟨name, ext⟩)

/-- The four categories scanned by `get_changes`, with their extension
filters, in call order. -/
def categoryExts : List (String × String) :=
  [("templates", ".html"), ("posts", ".md"), ("assets", ""), ("data", ".json")]

/-- `get_changes(history, meta, force_recompile)`: build the dependency
tree, resolve the prerequisite cascade, then scan the four categories. -/
def get_changes (fs : FS) (history : Store) (meta : MetaCfg)
    (force_recompile : Bool) : Option (List (String × FolderChanges)) :=
  let dep_tree := build_dep_tree fs meta
  let prereqs := dep_tree.map Prod.fst
  match prereq_scan fs history ⟨[], [], []⟩ dep_tree with
  | none => none
  | some ps =>
    match folder_changes fs history prereqs ps force_recompile "templates" ".html" with
    | none => none
    | some t =>
      match folder_changes fs history prereqs ps force_recompile "posts" ".md" with
      | none => none
      | some p =>
        match folder_changes fs history prereqs ps force_recompile "assets" "" with
        | none => none
        | some a =>
          match folder_changes fs history prereqs ps force_recompile "data" ".json" with
          | none => none
          | some d =>
            some [("templates", t), ("posts", p), ("assets", a), ("data", d)]

/-- First loop of `process_folder_changes`: for each modified entry, write
the fingerprint into the store section, and invoke `mod_handler`.  The
write is guarded by `if history:`, which is false both for `None` and for
an empty dict, so an empty section receives no writes (and therefore stays
empty for the whole loop).  Returns the updated section and the ordered
list of `mod_handler` invocations. -/
def applyMods (history : Option FolderInfo) :
    List (String × FileInfo) → Option FolderInfo × List String
  | [] => (history, [])
  | (name, metadata) :: rest =>
    let h : Option FolderInfo :=
      match history with
      | none => none
      | some [] => some []
      | some (e :: es) => some (insertA (e :: es) name metadata)
    let r := applyMods h rest
    (r.1, name :: r.2)

/-- Second loop of `process_folder_changes`: for each deleted path, pop it
from the store section, and invoke `del_handler`.  The pop is guarded by
`if history:`, false for `None` and for an empty dict, so an empty section
is left alone.  `none` models the `KeyError` raised by `history.pop` on an
absent key of a non-empty section. -/
def applyDels (history : Option FolderInfo) :
    List String → Option (Option FolderInfo × List String)
  | [] => some (history, [])
  | d :: rest =>
    match history with
    | none =>
      match applyDels none rest with
      | some r => some (r.1, d :: r.2)
      | none => none
    | some [] =>
      match applyDels (some []) rest with
      | some r => some (r.1, d :: r.2)
      | none => none
    | some (e :: es) =>
      match popA (e :: es) d with
      | none => none
      | some hh' =>
        match applyDels (some hh') rest with
        | some r => some (r.1, d :: r.2)
        | none => none

/-- `process_folder_changes(changes, mod_handler, del_handler, history)`:
returns the updated store section (if one was supplied) together with the
ordered lists of `mod_handler` and `del_handler` invocations. -/
def process_folder_changes (changes : FolderChanges)
    (history : Option FolderInfo) :
    Option (Option FolderInfo × List String × List String) :=
  let m := applyMods history changes.1
  match applyDels m.1 changes.2 with
  | none => none
  | some r => some (r.1, m.2, r.2)

/-- One `process_folder_changes(changes[name], ..., history[name])` call of
`generate`'s incremental persistence pass, with the mutated section written
back into the store. -/
def reconcileCategory (all : List (String × FolderChanges)) (history : Store)
    (name : String) : Option Store :=
  match lookupA all name with
  | none => none
  | some fc =>
    match lookupA history name with
    | none => none
    | some sect =>
      match process_folder_changes fc (some sect) with
      | some (some sect', _, _) => some (insertA history name sect')
      | _ => none

/-- The incremental persistence pass of `generate`: reconcile each of the
four categories against its section of `history`, in `generate`'s call
order. -/
def reconcile_run (all : List (String × FolderChanges)) (history : Store) :
    Option Store :=
  match reconcileCategory all history "templates" with
  | none => none
  | some h1 =>
    match reconcileCategory all h1 "assets" with
    | none => none
    | some h2 =>
      match reconcileCategory all h2 "posts" with
      | none => none
      | some h3 => reconcileCategory all h3 "data"

/-- `FOLDERS.values()` in declaration order. -/
def FOLDERS : List String := ["templates", "posts", "assets", "site", "data"]

/-- Observable outcome of the `create` command: the resulting set of
directories, whether `meta.json` / `history.json` were written, and the
process exit code. -/
structure CreateResult where
  dirs : List String
  wroteMeta : Bool
  wroteHistory : Bool
  exitCode : Nat
deriving DecidableEq, Repr

/-- The `for folder in FOLDERS.values()` loop of `create`: `os.mkdir` each
folder; on `FileExistsError`, `os.rmdir` every folder before the failing
one (exactly the ones created this run) and `sys.exit(1)` before any file
is written. -/
def createLoop (dirs created : List String) : List String → CreateResult
  | [] => { dirs := dirs, wroteMeta := true, wroteHistory := true, exitCode := 0 }
  | folder :: rest =>
    if dirs.contains folder then
      { dirs := created.foldl (fun ds f => ds.erase f) dirs,
        wroteMeta := false, wroteHistory := false, exitCode := 1 }
    else createLoop (dirs ++ [folder]) (created ++ [folder]) rest

/-- `create()`, acting on the set of directories that already exist. -/
def create (dirs : List String) : CreateResult := createLoop dirs [] FOLDERS

/-- A well-formed filesystem: paths are unique. -/
def FS.wf (fs : FS) : Prop := (fs.files.map Prod.fst).Nodup

/-- A well-formed persisted store: within every category section, relative
paths are unique (as they are for any store the program itself writes). -/
def StoreWf (history : Store) : Prop :=
  ∀ p ∈ history, (p.2.map Prod.fst).Nodup

/-- What `populate_changes` records for one visited file, expressed
directly in terms of the stored section `past` (valid when the scan visits
every file at most once, see `scan_files_lookup`). -/
def visitResult (fs : FS) (prereqs : List String) (ps : PrereqState)
    (past : FolderInfo) (name file : String) : Option FileInfo :=
  let r := relpathUnder name file
  let new_file := (lookupA past r).isNone
  if prereqs.contains file then
    if ps.prereq_changed.contains file then lookupA ps.prereq_info file else none
  else if ¬ ps.recompile.contains file ∨ new_file then
    _get_changes fs file
      (if new_file ∨ ps.recompile.contains file then none else lookupA past r)
  else lookupA past r


/-! ### Association-list lemmas -/

theorem lookupA_isSome_iff {α : Type} (l : List (String × α)) (k : String) :
    (lookupA l k).isSome ↔ k ∈ l.map Prod.fst := by
  induction l with
  | nil => simp [lookupA]
  | cons p rest ih =>
    obtain ⟨k', v'⟩ := p
    by_cases h : k' = k
    · simp [lookupA, h]
    · simp [lookupA, h, ih, Ne.symm h]

theorem lookupA_eq_none_iff {α : Type} (l : List (String × α)) (k : String) :
    lookupA l k = none ↔ k ∉ l.map Prod.fst := by
  rw [← lookupA_isSome_iff, Option.isSome_iff_exists]
  cases lookupA l k <;> simp

theorem mem_of_lookupA {α : Type} {l : List (String × α)} {k : String} {v : α}
    (h : lookupA l k = some v) : (k, v) ∈ l := by
  induction l with
  | nil => simp [lookupA] at h
  | cons p rest ih =>
    obtain ⟨k', v'⟩ := p
    by_cases hk : k' = k
    · simp [lookupA, hk] at h
      simp [hk, h]
    · simp [lookupA, hk] at h
      exact List.mem_cons_of_mem _ (ih h)

theorem lookupA_insertA_self {α : Type} (l : List (String × α)) (k : String) (v : α) :
    lookupA (insertA l k v) k = some v := by
  induction l with
  | nil => simp [insertA, lookupA]
  | cons p rest ih =>
    obtain ⟨k', v'⟩ := p
    by_cases h : k' = k
    · simp [insertA, h, lookupA]
    · simp [insertA, h, lookupA, ih]

theorem lookupA_insertA_ne {α : Type} (l : List (String × α)) {k k' : String} (v : α)
    (h : k' ≠ k) : lookupA (insertA l k v) k' = lookupA l k' := by
  induction l with
  | nil => simp [insertA, lookupA, h, Ne.symm h]
  | cons p rest ih =>
    obtain ⟨k₀, v₀⟩ := p
    by_cases h0 : k₀ = k
    · simp [insertA, h0, lookupA, h, Ne.symm h]
    · simp [insertA, h0, lookupA, ih]

theorem mem_keys_insertA {α : Type} (l : List (String × α)) (k : String) (v : α)
    (a : String) : a ∈ (insertA l k v).map Prod.fst ↔ a = k ∨ a ∈ l.map Prod.fst := by
  induction l with
  | nil => simp [insertA]
  | cons p rest ih =>
    obtain ⟨k₀, v₀⟩ := p
    by_cases h0 : k₀ = k
    · subst h0
      simp [insertA]
    · simp only [insertA, if_neg h0, List.map_cons, List.mem_cons, ih]
      tauto

theorem keys_insertA_nodup {α : Type} (l : List (String × α)) (k : String) (v : α)
    (h : (l.map Prod.fst).Nodup) : ((insertA l k v).map Prod.fst).Nodup := by
  induction l with
  | nil => simp [insertA]
  | cons p rest ih =>
    obtain ⟨k₀, v₀⟩ := p
    simp only [List.map_cons, List.nodup_cons] at h
    by_cases h0 : k₀ = k
    · subst h0
      simpa [insertA] using h
    · simp only [insertA, if_neg h0, List.map_cons, List.nodup_cons]
      refine ⟨fun hmem => ?_, ih h.2⟩
      rw [mem_keys_insertA] at hmem
      rcases hmem with rfl | hmem
      · exact h0 rfl
      · exact h.1 hmem

theorem length_insertA_of_not_mem {α : Type} (l : List (String × α)) (k : String)
    (v : α) (h : k ∉ l.map Prod.fst) : (insertA l k v).length = l.length + 1 := by
  induction l with
  | nil => simp [insertA]
  | cons p rest ih =>
    obtain ⟨k₀, v₀⟩ := p
    simp only [List.map_cons, List.mem_cons] at h
    push_neg at h
    simp [insertA, Ne.symm h.1, ih h.2]

theorem popA_isSome_iff {α : Type} (l : List (String × α)) (k : String) :
    (popA l k).isSome ↔ k ∈ l.map Prod.fst := by
  induction l with
  | nil => simp [popA]
  | cons p rest ih =>
    obtain ⟨k₀, v₀⟩ := p
    by_cases h0 : k₀ = k
    · simp [popA, h0]
    · simp [popA, h0, ih, Ne.symm h0]

theorem keys_popA_subset {α : Type} {l l' : List (String × α)} {k : String}
    (h : popA l k = some l') (a : String) (ha : a ∈ l'.map Prod.fst) :
    a ∈ l.map Prod.fst := by
  induction l generalizing l' with
  | nil => simp [popA] at h
  | cons p rest ih =>
    obtain ⟨k₀, v₀⟩ := p
    by_cases h0 : k₀ = k
    · simp only [popA, if_pos h0] at h
      cases h
      simp [ha]
    · simp only [popA, if_neg h0] at h
      cases hrest : popA rest k with
      | none => simp [hrest] at h
      | some r =>
        simp only [hrest, Option.map_some] at h
        cases h
        simp only [List.map_cons, List.mem_cons] at ha ⊢
        rcases ha with rfl | ha
        · exact Or.inl rfl
        · exact Or.inr (ih hrest ha)

theorem keys_popA_nodup {α : Type} {l l' : List (String × α)} {k : String}
    (h : popA l k = some l') (hnd : (l.map Prod.fst).Nodup) :
    (l'.map Prod.fst).Nodup := by
  induction l generalizing l' with
  | nil => simp [popA] at h
  | cons p rest ih =>
    obtain ⟨k₀, v₀⟩ := p
    simp only [List.map_cons, List.nodup_cons] at hnd
    by_cases h0 : k₀ = k
    · simp only [popA, if_pos h0] at h
      cases h
      exact hnd.2
    · simp only [popA, if_neg h0] at h
      cases hrest : popA rest k with
      | none => simp [hrest] at h
      | some r =>
        simp only [hrest, Option.map_some] at h
        cases h
        simp only [List.map_cons, List.nodup_cons]
        exact ⟨fun hm => hnd.1 (keys_popA_subset hrest _ hm), ih hrest hnd.2⟩

theorem lookupA_popA_self {α : Type} {l l' : List (String × α)} {k : String}
    (h : popA l k = some l') (hnd : (l.map Prod.fst).Nodup) :
    lookupA l' k = none := by
  induction l generalizing l' with
  | nil => simp [popA] at h
  | cons p rest ih =>
    obtain ⟨k₀, v₀⟩ := p
    simp only [List.map_cons, List.nodup_cons] at hnd
    by_cases h0 : k₀ = k
    · simp only [popA, if_pos h0] at h
      cases h
      subst h0
      rw [lookupA_eq_none_iff]
      exact hnd.1
    · simp only [popA, if_neg h0] at h
      cases hrest : popA rest k with
      | none => simp [hrest] at h
      | some r =>
        simp only [hrest, Option.map_some] at h
        cases h
        simp [lookupA, h0, ih hrest hnd.2]

theorem lookupA_popA_ne {α : Type} {l l' : List (String × α)} {k k' : String}
    (h : popA l k = some l') (hne : k' ≠ k) :
    lookupA l' k' = lookupA l k' := by
  induction l generalizing l' with
  | nil => simp [popA] at h
  | cons p rest ih =>
    obtain ⟨k₀, v₀⟩ := p
    by_cases h0 : k₀ = k
    · simp only [popA, if_pos h0] at h
      cases h
      subst h0
      simp [lookupA, Ne.symm hne]
    · simp only [popA, if_neg h0] at h
      cases hrest : popA rest k with
      | none => simp [hrest] at h
      | some r =>
        simp only [hrest, Option.map_some] at h
        cases h
        by_cases hk : k₀ = k'
        · simp [lookupA, hk]
        · simp [lookupA, hk, ih hrest]


/-! ### String and path lemmas -/

/-- The string whose characters are the one-element list of a backslash. -/
theorem backslash_data : ("\\" : String).data = ['\\'] := rfl

theorem string_mk_data (s : String) : String.mk s.data = s := rfl

theorem data_mk (l : List Char) : (String.mk l).data = l := rfl

theorem string_eq_of_data {s t : String} (h : s.data = t.data) : s = t := by
  cases s; cases t; simp_all

theorem cat_sep_data (name r : String) :
    (name ++ "\\" ++ r).data = name.data ++ '\\' :: r.data := by
  rw [String.data_append, String.data_append, backslash_data]
  simp

theorem mem_get_files_iff (fs : FS) (p : GlobPattern) (F : String) :
    F ∈ get_files fs p ↔ F ∈ fs.files.map Prod.fst ∧ globMatch p F = true := by
  simp [get_files, List.mem_filter]

theorem get_files_nodup (fs : FS) (p : GlobPattern) (h : fs.wf) :
    (get_files fs p).Nodup := h.filter _

/-- A globbed file under `name` decomposes as `name ++ "\\" ++ relpath`. -/
theorem get_files_decompose {fs : FS} {name ext F : String}
    (h : F ∈ get_files fs (GlobPattern.mk name ext)) :
    F = name ++ "\\" ++ relpathUnder name F := by
  rw [mem_get_files_iff] at h
  have hp : ((name ++ "\\").data.isPrefixOf F.data) = true := by
    have := h.2
    unfold globMatch at this
    exact (Bool.and_eq_true_iff.mp this).1
  rw [ List.isPrefixOf_iff_prefix] at hp
  obtain ⟨t, ht⟩ := hp
  apply string_eq_of_data
  have hd : F.data = name.data ++ '\\' :: t := by
    rw [← ht, String.data_append, backslash_data]
    simp
  rw [cat_sep_data]
  unfold relpathUnder
  rw [data_mk, hd]
  have hdrop : (name.data ++ '\\' :: t).drop (name.data.length + 1) = t := by
    rw [show name.data ++ '\\' :: t = (name.data ++ ['\\']) ++ t by simp,
        show name.data.length + 1 = (name.data ++ ['\\']).length by simp]
    exact List.drop_left _ _
  rw [hdrop]

theorem relpathUnder_cat (name r : String) :
    relpathUnder name (name ++ "\\" ++ r) = r := by
  apply string_eq_of_data
  unfold relpathUnder
  rw [data_mk, cat_sep_data]
  have : name.data ++ '\\' :: r.data = (name.data ++ ['\\']) ++ r.data := by simp
  rw [this, show name.data.length + 1 = (name.data ++ ['\\']).length by simp]
  exact List.drop_left _ _

/-- Distinct files below the same root have distinct relative paths. -/
theorem relpath_inj {fs : FS} {name ext F G : String}
    (hF : F ∈ get_files fs (GlobPattern.mk name ext))
    (hG : G ∈ get_files fs (GlobPattern.mk name ext))
    (h : relpathUnder name F = relpathUnder name G) : F = G := by
  rw [get_files_decompose hF, get_files_decompose hG, h]

theorem pathTossAux_cat (nm r : List Char) (acc : List Char)
    (h : forall c, c ∈ nm -> ¬(c = '\\' ∨ c = '/')) :
    pathTossAux acc (nm ++ '\\' :: r) = some (acc.reverse ++ nm, r) := by
  induction nm generalizing acc with
  | nil => simp [pathTossAux]
  | cons c cs ih =>
    have hc : ¬(c = '\\' ∨ c = '/') := h c (by simp)
    have hstep : pathTossAux acc ((c :: cs) ++ '\\' :: r) =
        pathTossAux (c :: acc) (cs ++ '\\' :: r) := by
      simp [pathTossAux, hc]
    rw [hstep, ih _ (fun d hd => h d (by simp [hd]))]
    simp

/-- `path_toss` on `name\\rest` with a separator-free `name` splits at the
first backslash. -/
theorem path_toss_cat (name r : String)
    (h : forall c, c ∈ name.data -> ¬(c = '\\' ∨ c = '/')) :
    path_toss (name ++ "\\" ++ r) = some (name, r) := by
  unfold path_toss
  rw [cat_sep_data, pathTossAux_cat _ _ _ h]
  simp [string_mk_data]
/-! ### Lemmas about `create` -/

theorem erase_fold_restore (created : List String) : ∀ dirs0 : List String,
    (∀ c ∈ created, c ∉ dirs0) → created.Nodup →
    created.foldl (fun ds f => ds.erase f) (dirs0 ++ created) = dirs0 := by
  induction created with
  | nil => intro dirs0 _ _; simp
  | cons c cs ih =>
    intro dirs0 hdisj hnd
    simp only [List.foldl_cons]
    have h1 : (dirs0 ++ c :: cs).erase c = dirs0 ++ cs := by
      rw [List.erase_append_right _ (hdisj c (by simp))]
      simp
    rw [h1]
    exact ih dirs0 (fun x hx => hdisj x (by simp [hx])) (List.Nodup.of_cons hnd)

theorem createLoop_fail (rest : List String) : ∀ created dirs0 : List String,
    (∀ c ∈ created, c ∉ dirs0) → created.Nodup → (∀ c ∈ created, c ∉ rest) →
    rest.Nodup → (∃ f ∈ rest, f ∈ dirs0) →
    createLoop (dirs0 ++ created) created rest =
      { dirs := dirs0, wroteMeta := false, wroteHistory := false, exitCode := 1 } := by
  induction rest with
  | nil =>
    intro created dirs0 _ _ _ _ hex
    simp at hex
  | cons f rs ih =>
    intro created dirs0 hdisj hnd hcr hrnd hex
    by_cases hf : f ∈ dirs0
    · have hcont : (dirs0 ++ created).contains f = true := by
        simp [List.elem_eq_mem, hf]
      simp only [createLoop, hcont, if_pos]
      rw [erase_fold_restore created dirs0 hdisj hnd]
    · have hfc : f ∉ created := fun hm => hcr f hm (by simp)
      have hcont : (dirs0 ++ created).contains f = false := by
        simp [List.elem_eq_mem, hf, hfc]
      simp only [createLoop, hcont, Bool.false_eq_true, if_false]
      have hassoc : (dirs0 ++ created) ++ [f] = dirs0 ++ (created ++ [f]) := by simp
      rw [hassoc]
      have hnodup_rs : rs.Nodup := List.Nodup.of_cons hrnd
      have hf_rs : f ∉ rs := by
        have := List.nodup_cons.mp hrnd
        exact this.1
      apply ih (created ++ [f]) dirs0
      · intro c hc
        rcases List.mem_append.mp hc with hc | hc
        · exact hdisj c hc
        · simp at hc
          subst hc
          exact hf
      · rw [List.nodup_append]
        exact ⟨hnd, by simp, by simpa using fun hm => hfc hm⟩
      · intro c hc
        rcases List.mem_append.mp hc with hc | hc
        · exact fun hm => hcr c hc (by simp [hm])
        · simp at hc
          subst hc
          exact hf_rs
      · exact hnodup_rs
      · rcases hex with ⟨g, hg, hgd⟩
        rcases List.mem_cons.mp hg with rfl | hg
        · exact absurd hgd hf
        · exact ⟨g, hg, hgd⟩
/-! ### Lemmas about `build_dep_tree` -/

theorem dep_tree_add_cons (fs : FS) (pattern : GlobPattern)
    (dep : List (String × List String)) (p : String) (ps : List String) :
    dep_tree_add fs pattern dep (p :: ps) =
      dep_tree_add fs pattern
        (match lookupA dep (normSlash p) with
         | some s => insertA dep (normSlash p) (s ++ get_files fs pattern)
         | none => insertA dep (normSlash p) (get_files fs pattern)) ps := rfl

theorem dep_tree_add_mono (fs : FS) (pattern : GlobPattern) (ps : List String) :
    ∀ dep k s x, lookupA dep k = some s → x ∈ s →
    ∃ s', lookupA (dep_tree_add fs pattern dep ps) k = some s' ∧ x ∈ s' := by
  induction ps with
  | nil => intro dep k s x h hx; exact ⟨s, h, hx⟩
  | cons p rest ih =>
    intro dep k s x h hx
    rw [dep_tree_add_cons]
    by_cases hk : normSlash p = k
    · subst hk
      rw [h]
      exact ih _ _ _ x (lookupA_insertA_self _ _ _) (by simp [hx])
    · cases hl : lookupA dep (normSlash p) with
      | some s0 =>
        refine ih _ k s x ?_ hx
        show lookupA (insertA dep (normSlash p) (s0 ++ get_files fs pattern)) k = some s
        rw [lookupA_insertA_ne _ _ (fun he => hk he.symm)]
        exact h
      | none =>
        refine ih _ k s x ?_ hx
        show lookupA (insertA dep (normSlash p) (get_files fs pattern)) k = some s
        rw [lookupA_insertA_ne _ _ (fun he => hk he.symm)]
        exact h

theorem dep_tree_add_covers (fs : FS) (pattern : GlobPattern) (ps : List String) :
    ∀ dep p, p ∈ ps → ∀ x ∈ get_files fs pattern,
    ∃ s', lookupA (dep_tree_add fs pattern dep ps) (normSlash p) = some s' ∧ x ∈ s' := by
  induction ps with
  | nil => simp
  | cons p0 rest ih =>
    intro dep p hp x hx
    rw [dep_tree_add_cons]
    rcases List.mem_cons.mp hp with rfl | hp
    · cases hl : lookupA dep (normSlash p) with
      | some s =>
        exact dep_tree_add_mono fs pattern rest _ _ _ x
          (lookupA_insertA_self _ _ _) (by simp [hx])
      | none =>
        exact dep_tree_add_mono fs pattern rest _ _ _ x
          (lookupA_insertA_self _ _ _) hx
    · exact ih _ p hp x hx

theorem build_dep_go_mono (fs : FS) (l : List (GlobPattern × List String)) :
    ∀ dep k s x, lookupA dep k = some s → x ∈ s →
    ∃ s', lookupA (build_dep_go fs dep l) k = some s' ∧ x ∈ s' := by
  induction l with
  | nil => intro dep k s x h hx; exact ⟨s, h, hx⟩
  | cons e rest ih =>
    intro dep k s x h hx
    obtain ⟨pattern, prereq⟩ := e
    obtain ⟨s', hs', hx'⟩ := dep_tree_add_mono fs pattern prereq dep k s x h hx
    exact ih _ k s' x hs' hx'

/-- Every concrete file matching a declared pattern ends up among the
dependents of each of that pattern's prerequisites. -/
theorem build_dep_tree_covers {fs : FS} {meta : MetaCfg} {P : GlobPattern}
    {qs : List String} {q : String} (hPq : (P, qs) ∈ meta.deps) (hq : q ∈ qs) :
    ∀ x ∈ get_files fs P,
    ∃ s', lookupA (build_dep_tree fs meta) (normSlash q) = some s' ∧ x ∈ s' := by
  unfold build_dep_tree
  have main : ∀ l dep, (P, qs) ∈ l → ∀ x ∈ get_files fs P,
      ∃ s', lookupA (build_dep_go fs dep l) (normSlash q) = some s' ∧ x ∈ s' := by
    intro l
    induction l with
    | nil => simp
    | cons e rest ih =>
      intro dep he x hx
      rcases List.mem_cons.mp he with heq | hmem
      · rw [← heq]
        obtain ⟨s', hs', hx'⟩ := dep_tree_add_covers fs P qs dep q hq x hx
        exact build_dep_go_mono fs rest _ _ _ x hs' hx'
      · obtain ⟨pattern, prereq⟩ := e
        exact ih _ hmem x hx
  exact main meta.deps [] hPq

/-! ### Lemmas about the prerequisite loop -/

theorem prereq_scan_mono {fs : FS} {history : Store}
    (l : List (String × List String)) :
    ∀ st ps, prereq_scan fs history st l = some ps →
    (∀ x ∈ st.recompile, x ∈ ps.recompile) ∧
    (∀ x ∈ st.prereq_changed, x ∈ ps.prereq_changed) := by
  induction l with
  | nil =>
    intro st ps h
    simp only [prereq_scan] at h
    cases h
    exact ⟨fun x hx => hx, fun x hx => hx⟩
  | cons e rest ih =>
    intro st ps h
    obtain ⟨prereq, dependents⟩ := e
    rw [prereq_scan] at h
    split at h
    · cases h
    · split at h
      · cases h
      · split at h
        · have hmono := ih _ _ h
          exact ⟨fun x hx => hmono.1 x (by simp [hx]),
                 fun x hx => hmono.2 x (by simp [hx])⟩
        · exact ih _ _ h

/-- If some entry of the dependency list has a prerequisite whose stored
fingerprint is out of date with respect to the file on disk, the entry's
dependents all end up in the final `recompile` set and the prerequisite is
marked changed. -/
theorem prereq_scan_fires {fs : FS} {history : Store}
    {Q : String} {deps : List String} {fd : FileData} {fp : FileInfo}
    {qf qr : String}
    (hfs : lookupA fs.files Q = some fd)
    (hpt : path_toss Q = some (qf, qr))
    (hsect : ∀ finfo, lookupA history qf = some finfo → lookupA finfo qr = some fp)
    (hmt : fp.mod_date < fd.mtime) (hhash : fp.hash ≠ md5 fd.content)
    (l : List (String × List String)) :
    ∀ st ps, prereq_scan fs history st l = some ps → (Q, deps) ∈ l →
    (∀ d ∈ deps, d ∈ ps.recompile) ∧ Q ∈ ps.prereq_changed := by
  induction l with
  | nil => intro st ps _ hmem; simp at hmem
  | cons e rest ih =>
    intro st ps h hmem
    obtain ⟨prereq, dependents⟩ := e
    rw [prereq_scan] at h
    split at h
    · cases h
    · rename_i fr hpt0
      split at h
      · cases h
      · rename_i ph hh
        rcases List.mem_cons.mp hmem with heq | hmem
        · injection heq with he1 he2
          subst he1
          subst he2
          rw [hpt] at hpt0
          injection hpt0 with hpt0
          subst hpt0
          have hfire : ∃ pc, _get_changes fs Q ph = some pc := by
            unfold prereq_history_of at hh
            split at hh
            · injection hh with hh
              subst hh
              exact ⟨⟨fd.mtime, md5 fd.content⟩, by simp [_get_changes, hfs]⟩
            · split at hh
              · cases hh
              · rename_i finfo hf
                split at hh
                · cases hh
                · rename_i past hfp
                  have hpf := hsect finfo hf
                  rw [hfp] at hpf
                  injection hpf with hpf
                  injection hh with hh
                  subst hh
                  subst hpf
                  refine ⟨⟨fd.mtime, md5 fd.content⟩, ?_⟩
                  simp only [_get_changes, hfs, if_pos hmt]
                  rw [if_pos hhash]
          obtain ⟨pc, hpc⟩ := hfire
          rw [hpc] at h
          have hmono := prereq_scan_mono rest _ _ h
          constructor
          · intro d hd
            exact hmono.1 d (by simp [hd])
          · exact hmono.2 Q (by simp)
        · split at h
          · exact ih _ _ h hmem
          · exact ih _ _ h hmem

/-- A prerequisite that does not exist on disk is never marked changed:
`_get_changes` returns the empty record for a missing file, so no cascade
originates from it. -/
theorem prereq_scan_missing_not_changed {fs : FS} {history : Store}
    {Q : String} (hfs : lookupA fs.files Q = none)
    (l : List (String × List String)) :
    ∀ st ps, prereq_scan fs history st l = some ps →
    Q ∉ st.prereq_changed → Q ∉ ps.prereq_changed := by
  induction l with
  | nil =>
    intro st ps h hst
    simp only [prereq_scan] at h
    cases h
    exact hst
  | cons e rest ih =>
    intro st ps h hst
    obtain ⟨prereq, dependents⟩ := e
    rw [prereq_scan] at h
    split at h
    · cases h
    · split at h
      · cases h
      · split at h
        · rename_i ph hh pc hg
          have hne : prereq ≠ Q := by
            intro he
            subst he
            simp only [_get_changes, hfs] at hg
            cases hg
          refine ih _ _ h ?_
          simp only [List.mem_append, List.mem_singleton]
          rintro (hm | rfl)
          · exact hst hm
          · exact hne rfl
        · exact ih _ _ h hst

/-! ### Lemmas about the folder scan -/

theorem contains_iff (l : List String) (a : String) : l.contains a = true ↔ a ∈ l := by
  simp

/-- Every successful `populate_changes` step erases the file's relative path
from the working set and at most inserts that same relative path into the
modified map. -/
theorem populate_changes_parts {fs : FS} {history : Store} {prereqs : List String}
    {ps : PrereqState} {name : String} {past : FolderInfo}
    {st st' : FolderInfo × List String} {file : String}
    (h : populate_changes fs history prereqs ps name past st file = some st') :
    st'.2 = st.2.erase (relpathUnder name file) ∧
    (st'.1 = st.1 ∨ ∃ v, st'.1 = insertA st.1 (relpathUnder name file) v) := by
  have herase : (if (¬ st.2.contains (relpathUnder name file)) then st.2
      else st.2.erase (relpathUnder name file)) = st.2.erase (relpathUnder name file) := by
    split
    · rename_i hnew
      rw [List.erase_of_not_mem]
      intro hmem
      exact hnew ((contains_iff _ _).mpr hmem)
    · rfl
  simp only [populate_changes] at h
  split at h
  · split at h
    · split at h
      · injection h with h
        subst h
        exact ⟨herase, Or.inr ⟨_, rfl⟩⟩
      · cases h
    · injection h with h
      subst h
      exact ⟨herase, Or.inl rfl⟩
  · split at h
    · split at h
      · injection h with h
        subst h
        exact ⟨herase, Or.inr ⟨_, rfl⟩⟩
      · injection h with h
        subst h
        exact ⟨herase, Or.inl rfl⟩
    · split at h
      · cases h
      · split at h
        · cases h
        · injection h with h
          subst h
          exact ⟨herase, Or.inr ⟨_, rfl⟩⟩

/-- A scan over files none of which has relative path `r` neither records
an entry for `r` nor touches `r` in the working set. -/
theorem scan_files_preserve {fs : FS} {history : Store} {prereqs : List String}
    {ps : PrereqState} {name : String} {past : FolderInfo}
    (l : List String) :
    ∀ st st', scan_files fs history prereqs ps name past st l = some st' →
    ∀ r, (∀ F ∈ l, relpathUnder name F ≠ r) →
    lookupA st'.1 r = lookupA st.1 r ∧ (r ∈ st'.2 ↔ r ∈ st.2) := by
  induction l with
  | nil =>
    intro st st' h r _
    simp only [scan_files] at h
    cases h
    exact ⟨rfl, Iff.rfl⟩
  | cons F rest ih =>
    intro st st' h r hr
    simp only [scan_files] at h
    cases hstep : populate_changes fs history prereqs ps name past st F with
    | none => rw [hstep] at h; cases h
    | some st1 =>
      rw [hstep] at h
      have hF : relpathUnder name F ≠ r := hr F (by simp)
      obtain ⟨h2, h1⟩ := populate_changes_parts hstep
      have hrest := ih st1 st' h r (fun G hG => hr G (by simp [hG]))
      constructor
      · rw [hrest.1]
        rcases h1 with h1 | ⟨v, h1⟩
        · rw [h1]
        · rw [h1, lookupA_insertA_ne _ _ (fun he => hF he.symm)]
      · rw [hrest.2, h2]
        exact List.mem_erase_of_ne (fun he => hF he.symm)

/-- Modified entries only ever carry relative paths of scanned files. -/
theorem scan_files_keys {fs : FS} {history : Store} {prereqs : List String}
    {ps : PrereqState} {name : String} {past : FolderInfo}
    (l : List String) :
    ∀ st st', scan_files fs history prereqs ps name past st l = some st' →
    ∀ r, (lookupA st'.1 r).isSome →
    (lookupA st.1 r).isSome ∨ ∃ F ∈ l, relpathUnder name F = r := by
  intro st st' h r hsome
  by_cases hex : ∃ F ∈ l, relpathUnder name F = r
  · exact Or.inr hex
  · push_neg at hex
    left
    rw [← (scan_files_preserve l st st' h r hex).1]
    exact hsome

/-- What a single successful `populate_changes` step records for its own
file, assuming nothing was recorded for it yet and the working set agrees
with the stored section on this file's relative path. -/
theorem populate_changes_lookup {fs : FS} {history : Store} {prereqs : List String}
    {ps : PrereqState} {name : String} {past : FolderInfo}
    {st st1 : FolderInfo × List String} {F : String}
    (hstep : populate_changes fs history prereqs ps name past st F = some st1)
    (hist_ok : lookupA history name = some past ∨ past = [])
    (hnewiff : st.2.contains (relpathUnder name F) = true ↔
      (lookupA past (relpathUnder name F)).isSome = true)
    (hch0 : lookupA st.1 (relpathUnder name F) = none) :
    lookupA st1.1 (relpathUnder name F) = visitResult fs prereqs ps past name F := by
  have hnew2 : (¬ st.2.contains (relpathUnder name F) = true) ↔
      (lookupA past (relpathUnder name F)).isNone = true := by
    rw [Option.isNone_iff_eq_none, ← Option.not_isSome_iff_eq_none]
    exact not_congr hnewiff
  simp only [populate_changes] at hstep
  simp only [visitResult]
  split at hstep
  · rename_i hc1
    rw [if_pos hc1]
    split at hstep
    · rename_i hc2
      rw [if_pos hc2]
      split at hstep
      · rename_i info hinfo
        injection hstep with hstep
        subst hstep
        rw [lookupA_insertA_self, hinfo]
      · cases hstep
    · rename_i hc2
      rw [if_neg hc2]
      injection hstep with hstep
      subst hstep
      exact hch0
  · rename_i hc1
    rw [if_neg hc1]
    have hiff : ((¬ st.2.contains (relpathUnder name F) = true) ∨
        ps.recompile.contains F = true) ↔
        ((lookupA past (relpathUnder name F)).isNone = true ∨
        ps.recompile.contains F = true) := by
      exact or_congr hnew2 Iff.rfl
    have hfp : (if (¬ st.2.contains (relpathUnder name F) = true) ∨
          ps.recompile.contains F = true then (none : Option FileInfo)
        else lookupA past (relpathUnder name F)) =
        (if (lookupA past (relpathUnder name F)).isNone = true ∨
          ps.recompile.contains F = true then (none : Option FileInfo)
        else lookupA past (relpathUnder name F)) := by
      exact if_congr hiff rfl rfl
    split at hstep
    · rename_i hc4
      have hB : (¬ ps.recompile.contains F = true) ∨
          (lookupA past (relpathUnder name F)).isNone = true := by
        rcases hc4 with h | h
        · exact Or.inl h
        · exact Or.inr (hnew2.mp h)
      rw [if_pos hB]
      split at hstep
      · rename_i fc hg
        injection hstep with hstep
        subst hstep
        rw [lookupA_insertA_self, ← hfp, hg]
      · rename_i hg
        injection hstep with hstep
        subst hstep
        rw [hch0, ← hfp, hg]
    · rename_i hc4
      push_neg at hc4
      obtain ⟨hrec, hcont⟩ := hc4
      have hS : (lookupA past (relpathUnder name F)).isSome = true := hnewiff.mp hcont
      have hB : ¬ ((¬ ps.recompile.contains F = true) ∨
          (lookupA past (relpathUnder name F)).isNone = true) := by
        push_neg
        refine ⟨hrec, ?_⟩
        intro hN
        rw [Option.isNone_iff_eq_none] at hN
        rw [hN] at hS
        cases hS
      rw [if_neg hB]
      split at hstep
      · cases hstep
      · rename_i hist_name hh
        have hpe : hist_name = past := by
          rcases hist_ok with hist_ok | hist_ok
          · exact Option.some.inj (hh.symm.trans hist_ok)
          · subst hist_ok
            simp [lookupA] at hS
        subst hpe
        split at hstep
        · cases hstep
        · rename_i finfo hf
          injection hstep with hstep
          subst hstep
          rw [lookupA_insertA_self, hf]

/-- Fold-level characterisation of the modified map: each scanned file's
entry is exactly `visitResult`, provided relative paths are unique and the
working set starts out in sync with the stored section. -/
theorem scan_files_lookup {fs : FS} {history : Store} {prereqs : List String}
    {ps : PrereqState} {name : String} {past : FolderInfo}
    (hist_ok : lookupA history name = some past ∨ past = [])
    (l : List String) :
    ∀ st st', scan_files fs history prereqs ps name past st l = some st' →
    l.Nodup →
    (∀ F ∈ l, F = name ++ "\\" ++ relpathUnder name F) →
    (∀ F ∈ l, lookupA st.1 (relpathUnder name F) = none) →
    (∀ F ∈ l, (st.2.contains (relpathUnder name F) = true ↔
      (lookupA past (relpathUnder name F)).isSome = true)) →
    ∀ F ∈ l, lookupA st'.1 (relpathUnder name F) =
      visitResult fs prereqs ps past name F := by
  induction l with
  | nil => intro st st' _ _ _ _ _ F hF; simp at hF
  | cons F0 rest ih =>
    intro st st' h hnd hdec hch hpsinv F hF
    simp only [scan_files] at h
    cases hstep : populate_changes fs history prereqs ps name past st F0 with
    | none => rw [hstep] at h; cases h
    | some st1 =>
      rw [hstep] at h
      obtain ⟨h2, h1⟩ := populate_changes_parts hstep
      have hreldist : ∀ G ∈ rest, relpathUnder name G ≠ relpathUnder name F0 := by
        intro G hG he
        have hGd := hdec G (by simp [hG])
        have hFd := hdec F0 (by simp)
        have hGF : G = F0 := by rw [hGd, hFd, he]
        subst hGF
        exact (List.nodup_cons.mp hnd).1 hG
      rcases List.mem_cons.mp hF with rfl | hF
      · have hpres := scan_files_preserve rest st1 st' h (relpathUnder name F)
          (fun G hG => hreldist G hG)
        rw [hpres.1]
        exact populate_changes_lookup hstep hist_ok (hpsinv F (by simp))
          (hch F (by simp))
      · refine ih st1 st' h (List.nodup_cons.mp hnd).2
          (fun G hG => hdec G (by simp [hG])) ?_ ?_ F hF
        · intro G hG
          rcases h1 with h1 | ⟨v, h1⟩
          · rw [h1]
            exact hch G (by simp [hG])
          · rw [h1, lookupA_insertA_ne _ _ (hreldist G hG)]
            exact hch G (by simp [hG])
        · intro G hG
          rw [contains_iff, h2, List.mem_erase_of_ne (hreldist G hG), ← contains_iff]
          exact hpsinv G (by simp [hG])

/-- The working set left over after a scan is the original set with every
scanned file's relative path erased. -/
theorem scan_files_snd {fs : FS} {history : Store} {prereqs : List String}
    {ps : PrereqState} {name : String} {past : FolderInfo}
    (l : List String) :
    ∀ st st', scan_files fs history prereqs ps name past st l = some st' →
    st'.2 = l.foldl (fun s F => s.erase (relpathUnder name F)) st.2 := by
  induction l with
  | nil =>
    intro st st' h
    simp only [scan_files] at h
    cases h
    rfl
  | cons F0 rest ih =>
    intro st st' h
    simp only [scan_files] at h
    cases hstep : populate_changes fs history prereqs ps name past st F0 with
    | none => rw [hstep] at h; cases h
    | some st1 =>
      rw [hstep] at h
      obtain ⟨h2, _⟩ := populate_changes_parts hstep
      rw [List.foldl_cons, ← h2]
      exact ih st1 st' h

/-- Membership in an erase-fold over a duplicate-free starting set. -/
theorem erase_fold_mem (g : String → String) (l : List String) :
    ∀ s0 : List String, s0.Nodup → ∀ k,
    (k ∈ l.foldl (fun s F => s.erase (g F)) s0 ↔ k ∈ s0 ∧ ∀ F ∈ l, g F ≠ k) := by
  induction l with
  | nil => intro s0 _ k; simp
  | cons F0 rest ih =>
    intro s0 hnd k
    rw [List.foldl_cons, ih (s0.erase (g F0)) (hnd.erase _) k]
    constructor
    · rintro ⟨hk, hall⟩
      rw [hnd.mem_erase_iff] at hk
      refine ⟨hk.2, ?_⟩
      intro G hG
      rcases List.mem_cons.mp hG with rfl | hG
      · exact fun he => hk.1 he.symm
      · exact hall G hG
    · rintro ⟨hk, hall⟩
      refine ⟨?_, fun G hG => hall G (by simp [hG])⟩
      rw [hnd.mem_erase_iff]
      exact ⟨fun he => hall F0 (by simp) he.symm, hk⟩

theorem erase_fold_nodup (g : String → String) (l : List String) :
    ∀ s0 : List String, s0.Nodup →
    (l.foldl (fun s F => s.erase (g F)) s0).Nodup := by
  induction l with
  | nil => intro s0 h; simpa using h
  | cons F0 rest ih =>
    intro s0 hnd
    rw [List.foldl_cons]
    exact ih _ (hnd.erase _)

/-- Invariants of the scan state: modified keys are duplicate-free, the
working set is duplicate-free, and no modified key is still in the working
set. -/
theorem scan_files_invariant {fs : FS} {history : Store} {prereqs : List String}
    {ps : PrereqState} {name : String} {past : FolderInfo}
    (l : List String) :
    ∀ st st', scan_files fs history prereqs ps name past st l = some st' →
    (st.1.map Prod.fst).Nodup → (∀ k ∈ st.1.map Prod.fst, k ∉ st.2) → st.2.Nodup →
    (st'.1.map Prod.fst).Nodup ∧ (∀ k ∈ st'.1.map Prod.fst, k ∉ st'.2) ∧
      st'.2.Nodup := by
  induction l with
  | nil =>
    intro st st' h h1 h2 h3
    simp only [scan_files] at h
    cases h
    exact ⟨h1, h2, h3⟩
  | cons F0 rest ih =>
    intro st st' h h1 h2 h3
    simp only [scan_files] at h
    cases hstep : populate_changes fs history prereqs ps name past st F0 with
    | none => rw [hstep] at h; cases h
    | some st1 =>
      rw [hstep] at h
      obtain ⟨hsnd, hfst⟩ := populate_changes_parts hstep
      refine ih st1 st' h ?_ ?_ ?_
      · rcases hfst with hf | ⟨v, hf⟩
        · rw [hf]; exact h1
        · rw [hf]; exact keys_insertA_nodup _ _ _ h1
      · intro k hk
        rw [hsnd]
        rcases hfst with hf | ⟨v, hf⟩
        · rw [hf] at hk
          intro hmem
          exact h2 k hk (List.erase_subset _ _ hmem)
        · rw [hf, mem_keys_insertA] at hk
          rcases hk with rfl | hk
          · rw [h3.mem_erase_iff]
            rintro ⟨hne, _⟩
            exact hne rfl
          · intro hmem
            exact h2 k hk (List.erase_subset _ _ hmem)
      · rw [hsnd]
        exact h3.erase _

/-! ### Unfolding lemmas for `folder_changes` and `get_changes` -/

theorem folder_changes_eq {fs : FS} {history : Store} {prereqs : List String}
    {ps : PrereqState} {force : Bool} {name ext : String} {fc : FolderChanges}
    (h : folder_changes fs history prereqs ps force name ext = some fc) :
    ∃ past, (if force then some [] else lookupA history name) = some past ∧
      scan_files fs history prereqs ps name past ([], past.map Prod.fst)
        (get_files fs (GlobPattern.mk name ext)) = some fc := by
  unfold folder_changes at h
  split at h
  · cases h
  · rename_i past hpast
    exact ⟨past, hpast, h⟩

theorem get_changes_eq {fs : FS} {history : Store} {meta : MetaCfg}
    {force : Bool} {all : List (String × FolderChanges)}
    (h : get_changes fs history meta force = some all) :
    ∃ ps, prereq_scan fs history ⟨[], [], []⟩ (build_dep_tree fs meta) = some ps ∧
    ∃ t p a d,
      folder_changes fs history ((build_dep_tree fs meta).map Prod.fst) ps force
        "templates" ".html" = some t ∧
      folder_changes fs history ((build_dep_tree fs meta).map Prod.fst) ps force
        "posts" ".md" = some p ∧
      folder_changes fs history ((build_dep_tree fs meta).map Prod.fst) ps force
        "assets" "" = some a ∧
      folder_changes fs history ((build_dep_tree fs meta).map Prod.fst) ps force
        "data" ".json" = some d ∧
      all = [("templates", t), ("posts", p), ("assets", a), ("data", d)] := by
  simp only [get_changes] at h
  split at h
  · cases h
  · rename_i ps hps
    split at h
    · cases h
    · rename_i t ht
      split at h
      · cases h
      · rename_i p hp
        split at h
        · cases h
        · rename_i a ha
          split at h
          · cases h
          · rename_i d hd
            injection h with h
            exact ⟨ps, hps, t, p, a, d, ht, hp, ha, hd, h.symm⟩

/-! ### Lemmas about `process_folder_changes` -/

theorem applyMods_mods (history : Option FolderInfo) (l : List (String × FileInfo)) :
    (applyMods history l).2 = l.map Prod.fst := by
  induction l generalizing history with
  | nil => rfl
  | cons e rest ih =>
    obtain ⟨k, v⟩ := e
    simp only [applyMods, List.map_cons]
    rw [ih]

theorem applyMods_none (l : List (String × FileInfo)) :
    (applyMods none l).1 = none := by
  induction l with
  | nil => rfl
  | cons e rest ih =>
    obtain ⟨k, v⟩ := e
    simpa only [applyMods] using ih

/-- An empty section is falsy, so `applyMods` never writes into it. -/
theorem applyMods_emptysec (l : List (String × FileInfo)) :
    (applyMods (some []) l).1 = some [] := by
  induction l with
  | nil => rfl
  | cons e rest ih =>
    obtain ⟨k, v⟩ := e
    simpa only [applyMods] using ih

theorem insertA_ne_nil {α : Type} (l : List (String × α)) (k : String) (v : α) :
    insertA l k v ≠ [] := by
  cases l with
  | nil => simp [insertA]
  | cons e rest =>
    obtain ⟨k', v'⟩ := e
    simp only [insertA]
    split <;> simp

theorem applyMods_some (l : List (String × FileInfo)) :
    ∀ h0 : FolderInfo, h0 ≠ [] →
    (applyMods (some h0) l).1 =
      some (l.foldl (fun hh p => insertA hh p.1 p.2) h0) := by
  induction l with
  | nil => intro h0 _; rfl
  | cons e rest ih =>
    intro h0 hne
    obtain ⟨k, v⟩ := e
    cases h0 with
    | nil => exact absurd rfl hne
    | cons e0 es0 =>
      simpa only [applyMods, List.foldl_cons] using
        ih (insertA (e0 :: es0) k v) (insertA_ne_nil _ k v)

theorem applyDels_none (l : List String) :
    applyDels none l = some (none, l) := by
  induction l with
  | nil => rfl
  | cons d rest ih =>
    simp only [applyDels, ih]

/-- An empty section is falsy, so `applyDels` skips every pop (and can
raise no `KeyError`). -/
theorem applyDels_emptysec (l : List String) :
    applyDels (some []) l = some (some [], l) := by
  induction l with
  | nil => rfl
  | cons d rest ih =>
    simp only [applyDels, ih]

/-- Reconciling against an empty section always succeeds and persists
nothing: `if history:` is false throughout. -/
theorem process_emptysec (fc : FolderChanges) :
    process_folder_changes fc (some []) =
      some (some [], fc.1.map Prod.fst, fc.2) := by
  simp only [process_folder_changes, applyMods_emptysec, applyMods_mods,
    applyDels_emptysec]

theorem process_folder_changes_none (fc : FolderChanges) :
    process_folder_changes fc none = some (none, fc.1.map Prod.fst, fc.2) := by
  simp only [process_folder_changes, applyMods_none, applyMods_mods,
    applyDels_none]

theorem foldl_insert_lookup (l : List (String × FileInfo)) :
    ∀ h0 r, (l.map Prod.fst).Nodup →
    lookupA (l.foldl (fun hh p => insertA hh p.1 p.2) h0) r =
      (match lookupA l r with
       | some v => some v
       | none => lookupA h0 r) := by
  induction l with
  | nil => intro h0 r _; rfl
  | cons e rest ih =>
    intro h0 r hnd
    obtain ⟨k, v⟩ := e
    simp only [List.map_cons, List.nodup_cons] at hnd
    rw [List.foldl_cons]
    by_cases hk : k = r
    · subst hk
      rw [ih _ k hnd.2]
      have : lookupA rest k = none := by
        rw [lookupA_eq_none_iff]
        exact hnd.1
      rw [this]
      simp only [lookupA, if_pos rfl]
      exact lookupA_insertA_self h0 k v
    · rw [ih _ r hnd.2]
      simp only [lookupA, if_neg hk]
      cases lookupA rest r with
      | some w => rfl
      | none => exact lookupA_insertA_ne h0 v (fun he => hk he.symm)

theorem foldl_insert_nodup (l : List (String × FileInfo)) :
    ∀ h0 : FolderInfo, (h0.map Prod.fst).Nodup →
    ((l.foldl (fun hh p => insertA hh p.1 p.2) h0).map Prod.fst).Nodup := by
  induction l with
  | nil => intro h0 h; exact h
  | cons e rest ih =>
    intro h0 h
    obtain ⟨k, v⟩ := e
    rw [List.foldl_cons]
    exact ih _ (keys_insertA_nodup h0 k v h)

theorem applyDels_some_lookup (l : List String) :
    ∀ h0 r, applyDels (some h0) l = some r → (h0.map Prod.fst).Nodup →
    ∃ h1, r.1 = some h1 ∧ (∀ k ∈ l, lookupA h1 k = none) ∧
      (∀ k, k ∉ l → lookupA h1 k = lookupA h0 k) ∧ (h1.map Prod.fst).Nodup := by
  induction l with
  | nil =>
    intro h0 r h hnd
    simp only [applyDels] at h
    cases h
    exact ⟨h0, rfl, by simp, fun k _ => rfl, hnd⟩
  | cons d rest ih =>
    intro h0 r h hnd
    cases h0 with
    | nil =>
      rw [applyDels_emptysec] at h
      injection h with h
      subst h
      exact ⟨[], rfl, fun k _ => rfl, fun k _ => rfl, List.nodup_nil⟩
    | cons e0 es0 =>
      simp only [applyDels] at h
      split at h
      · cases h
      · rename_i h0' hpop
        split at h
        · rename_i r' hrest
          injection h with h
          subst h
          obtain ⟨h1, hr1, hdel, hkeep, hnd1⟩ :=
            ih h0' r' hrest (keys_popA_nodup hpop hnd)
          refine ⟨h1, hr1, ?_, ?_, hnd1⟩
          · intro k hk
            rcases List.mem_cons.mp hk with rfl | hk
            · by_cases hkr : k ∈ rest
              · exact hdel k hkr
              · rw [hkeep k hkr]
                exact lookupA_popA_self hpop hnd
            · exact hdel k hk
          · intro k hk
            have hkd : k ≠ d := fun he => hk (by simp [he])
            have hkr : k ∉ rest := fun hm => hk (by simp [hm])
            rw [hkeep k hkr]
            exact lookupA_popA_ne hpop hkd
        · cases h

theorem applyDels_dels (l : List String) :
    ∀ h0 r, applyDels h0 l = some r → r.2 = l := by
  induction l with
  | nil =>
    intro h0 r h
    simp only [applyDels] at h
    cases h
    rfl
  | cons d rest ih =>
    intro h0 r h
    cases h0 with
    | some hh =>
      cases hh with
      | nil =>
        rw [applyDels_emptysec] at h
        injection h with h
        subst h
        rfl
      | cons e0 es0 =>
        simp only [applyDels] at h
        split at h
        · cases h
        · rename_i hh' hpop
          split at h
          · rename_i r' hrest
            injection h with h
            subst h
            simp [ih _ _ hrest]
          · cases h
    | none =>
      simp only [applyDels] at h
      split at h
      · rename_i r' hrest
        injection h with h
        subst h
        simp [ih _ _ hrest]
      · cases h

/-- Full characterisation of a successful incremental reconciliation
against a non-empty section (`if history:` holds, so every write and pop
is performed): handler invocation lists, and the lookups of the updated
store section. -/
theorem process_some_store {fc : FolderChanges} {sect : FolderInfo}
    {res : Option FolderInfo × List String × List String}
    (h : process_folder_changes fc (some sect) = some res)
    (hmnd : (fc.1.map Prod.fst).Nodup)
    (hsnd : (sect.map Prod.fst).Nodup)
    (hne : sect ≠ []) :
    res.2.1 = fc.1.map Prod.fst ∧ res.2.2 = fc.2 ∧
    ∃ sect', res.1 = some sect' ∧
      (∀ k ∈ fc.2, lookupA sect' k = none) ∧
      (∀ k, k ∉ fc.2 → lookupA sect' k =
        (match lookupA fc.1 k with
         | some v => some v
         | none => lookupA sect k)) ∧
      (sect'.map Prod.fst).Nodup := by
  simp only [process_folder_changes, applyMods_some fc.1 sect hne] at h
  cases hdels : applyDels
      (some (fc.1.foldl (fun hh p => insertA hh p.1 p.2) sect)) fc.2 with
  | none => rw [hdels] at h; cases h
  | some r =>
    rw [hdels] at h
    injection h with h
    subst h
    obtain ⟨h1, hr1, hdel, hkeep, hnd1⟩ := applyDels_some_lookup fc.2 _ r hdels
      (foldl_insert_nodup fc.1 sect hsnd)
    refine ⟨?_, ?_, h1, hr1, hdel, ?_, hnd1⟩
    · simp [applyMods_mods]
    · simp [applyDels_dels fc.2 _ r hdels]
    · intro k hk
      rw [hkeep k hk]
      exact foldl_insert_lookup fc.1 sect k hmnd

/-! ### The scan with no dependency declarations, and the forced scan -/

theorem populate_changes_empty_isSome (fs : FS) (history : Store) (name : String)
    (past : FolderInfo) (st : FolderInfo × List String) (file : String) :
    (populate_changes fs history [] (PrereqState.mk [] [] []) name past st file).isSome = true := by
  simp only [populate_changes]
  have hc1 : ¬ (([] : List String).contains file = true) := by simp
  rw [if_neg hc1]
  have hc4 : (¬ (PrereqState.mk [] [] []).recompile.contains file = true) ∨
      (¬ st.2.contains (relpathUnder name file) = true) := Or.inl (by simp)
  rw [if_pos hc4]
  split <;> simp

theorem scan_files_empty_isSome (fs : FS) (history : Store) (name : String)
    (past : FolderInfo) (l : List String) :
    ∀ st, (scan_files fs history [] (PrereqState.mk [] [] []) name past st l).isSome = true := by
  induction l with
  | nil => intro st; simp [scan_files]
  | cons F rest ih =>
    intro st
    have hs := populate_changes_empty_isSome fs history name past st F
    obtain ⟨st1, hst1⟩ := Option.isSome_iff_exists.mp hs
    simp only [scan_files, hst1]
    exact ih st1

theorem folder_changes_empty_isSome (fs : FS) (history : Store)
    (name ext : String) (past : FolderInfo)
    (hpast : lookupA history name = some past) :
    (folder_changes fs history [] (PrereqState.mk [] [] []) false name ext).isSome = true := by
  unfold folder_changes
  have : (if false then some [] else lookupA history name) = some past := by
    simpa using hpast
  rw [this]
  exact scan_files_empty_isSome fs history name past _ _

theorem folder_changes_force_isSome (fs : FS) (history : Store)
    (name ext : String) :
    (folder_changes fs history [] (PrereqState.mk [] [] []) true name ext).isSome = true := by
  unfold folder_changes
  have : (if true then some ([] : FolderInfo) else lookupA history name) = some [] := by
    simp
  rw [this]
  exact scan_files_empty_isSome fs history name [] _ _

theorem populate_changes_force_new {fs : FS} {history : Store} {name : String}
    {ch0 : FolderInfo} {F : String} {fd : FileData}
    (hfd : lookupA fs.files F = some fd) :
    populate_changes fs history [] (PrereqState.mk [] [] []) name [] (ch0, []) F =
      some (insertA ch0 (relpathUnder name F)
        (FileInfo.mk fd.mtime (md5 fd.content)), []) := by
  simp only [populate_changes]
  have hc1 : ¬ (([] : List String).contains F = true) := by simp
  rw [if_neg hc1]
  have hnew : ¬ (([] : List String).contains (relpathUnder name F) = true) := by simp
  have hc4 : (¬ (PrereqState.mk [] [] []).recompile.contains F = true) ∨
      (¬ (([] : List String)).contains (relpathUnder name F) = true) := Or.inl (by simp)
  rw [if_pos hc4]
  have hfp : (if (¬ (([] : List String)).contains (relpathUnder name F) = true) ∨
        (PrereqState.mk [] [] []).recompile.contains F = true then (none : Option FileInfo)
      else lookupA [] (relpathUnder name F)) = none := by
    rw [if_pos (Or.inl hnew)]
  rw [hfp]
  have hg : _get_changes fs F none = some (FileInfo.mk fd.mtime (md5 fd.content)) := by
    simp [_get_changes, hfd]
  rw [hg]
  simp [hnew]

theorem scan_files_force_count {fs : FS} {history : Store} {name : String}
    (l : List String) :
    ∀ ch0 : FolderInfo,
    (∀ F ∈ l, (lookupA fs.files F).isSome = true) →
    (∀ F ∈ l, F = name ++ "\\" ++ relpathUnder name F) → l.Nodup →
    (∀ F ∈ l, relpathUnder name F ∉ ch0.map Prod.fst) →
    ∃ ch, scan_files fs history [] (PrereqState.mk [] [] []) name [] (ch0, []) l =
      some (ch, []) ∧ ch.length = ch0.length + l.length := by
  induction l with
  | nil =>
    intro ch0 _ _ _ _
    exact ⟨ch0, rfl, by simp⟩
  | cons F rest ih =>
    intro ch0 hfs hdec hnd hkeys
    obtain ⟨fd, hfd⟩ := Option.isSome_iff_exists.mp (hfs F (by simp))
    have hstep := @populate_changes_force_new fs history name ch0 F fd hfd
    simp only [scan_files, hstep]
    have hreldist : ∀ G ∈ rest, relpathUnder name G ≠ relpathUnder name F := by
      intro G hG he
      have hGd := hdec G (by simp [hG])
      have hFd := hdec F (by simp)
      have hGF : G = F := by rw [hGd, hFd, he]
      subst hGF
      exact (List.nodup_cons.mp hnd).1 hG
    obtain ⟨ch, hch, hlen⟩ := ih
      (insertA ch0 (relpathUnder name F) (FileInfo.mk fd.mtime (md5 fd.content)))
      (fun G hG => hfs G (by simp [hG]))
      (fun G hG => hdec G (by simp [hG]))
      (List.nodup_cons.mp hnd).2
      (fun G hG => by
        rw [mem_keys_insertA]
        rintro (he | hm)
        · exact hreldist G hG he
        · exact hkeys G (by simp [hG]) hm)
    refine ⟨ch, hch, ?_⟩
    rw [hlen, length_insertA_of_not_mem _ _ _ (hkeys F (by simp))]
    simp [Nat.add_assoc, Nat.add_comm 1 rest.length]

/-! ### Bridging lemmas for the four categories -/

theorem get_files_mem_fs {fs : FS} {p : GlobPattern} {F : String}
    (h : F ∈ get_files fs p) : (lookupA fs.files F).isSome = true := by
  rw [mem_get_files_iff] at h
  rw [lookupA_isSome_iff]
  exact h.1

theorem lookupA_cons_self {α : Type} (k : String) (v : α) (l : List (String × α)) :
    lookupA ((k, v) :: l) k = some v := by
  simp [lookupA]

theorem lookupA_cons_ne {α : Type} {k k' : String} (v : α) (l : List (String × α))
    (h : ¬ k = k') : lookupA ((k, v) :: l) k' = lookupA l k' := by
  simp [lookupA, h]

theorem lookupA_four {α : Type} {t p a d : α} {name : String} {fc : α}
    (hfc : lookupA [("templates", t), ("posts", p), ("assets", a), ("data", d)]
      name = some fc) :
    (name = "templates" ∧ fc = t) ∨ (name = "posts" ∧ fc = p) ∨
    (name = "assets" ∧ fc = a) ∨ (name = "data" ∧ fc = d) := by
  simp only [lookupA] at hfc
  split_ifs at hfc with h1 h2 h3 h4
  · exact Or.inl ⟨h1.symm, (Option.some.inj hfc).symm⟩
  · exact Or.inr (Or.inl ⟨h2.symm, (Option.some.inj hfc).symm⟩)
  · exact Or.inr (Or.inr (Or.inl ⟨h3.symm, (Option.some.inj hfc).symm⟩))
  · exact Or.inr (Or.inr (Or.inr ⟨h4.symm, (Option.some.inj hfc).symm⟩))

/-- Locating one category's change set inside a successful `get_changes`
result. -/
theorem get_changes_category {fs : FS} {history : Store} {meta : MetaCfg}
    {force : Bool} {all : List (String × FolderChanges)} {name ext : String}
    {fc : FolderChanges}
    (hgc : get_changes fs history meta force = some all)
    (hne : (name, ext) ∈ categoryExts)
    (hfc : lookupA all name = some fc) :
    ∃ ps, prereq_scan fs history (PrereqState.mk [] [] [])
        (build_dep_tree fs meta) = some ps ∧
      folder_changes fs history ((build_dep_tree fs meta).map Prod.fst) ps force
        name ext = some fc := by
  obtain ⟨ps, hps, t, p, a, d, ht, hp, ha, hd, hall⟩ := get_changes_eq hgc
  subst hall
  refine ⟨ps, hps, ?_⟩
  fin_cases hne
  · have hv : lookupA [("templates", t), ("posts", p), ("assets", a), ("data", d)]
        "templates" = some t := by
      rw [lookupA_cons_self]
    rw [hv] at hfc
    rw [← Option.some.inj hfc]
    exact ht
  · have hv : lookupA [("templates", t), ("posts", p), ("assets", a), ("data", d)]
        "posts" = some p := by
      rw [lookupA_cons_ne _ _ (by decide), lookupA_cons_self]
    rw [hv] at hfc
    rw [← Option.some.inj hfc]
    exact hp
  · have hv : lookupA [("templates", t), ("posts", p), ("assets", a), ("data", d)]
        "assets" = some a := by
      rw [lookupA_cons_ne _ _ (by decide), lookupA_cons_ne _ _ (by decide),
        lookupA_cons_self]
    rw [hv] at hfc
    rw [← Option.some.inj hfc]
    exact ha
  · have hv : lookupA [("templates", t), ("posts", p), ("assets", a), ("data", d)]
        "data" = some d := by
      rw [lookupA_cons_ne _ _ (by decide), lookupA_cons_ne _ _ (by decide),
        lookupA_cons_ne _ _ (by decide), lookupA_cons_self]
    rw [hv] at hfc
    rw [← Option.some.inj hfc]
    exact hd

/-- The stored section used by a successful category scan, with its
duplicate-freedom under a well-formed store. -/
theorem folder_changes_past {fs : FS} {history : Store} {prereqs : List String}
    {ps : PrereqState} {force : Bool} {name ext : String} {fc : FolderChanges}
    (h : folder_changes fs history prereqs ps force name ext = some fc)
    (hstore : StoreWf history) :
    ∃ past, (if force then some [] else lookupA history name) = some past ∧
      (past.map Prod.fst).Nodup ∧
      (lookupA history name = some past ∨ past = []) := by
  obtain ⟨past, hpast, _⟩ := folder_changes_eq h
  refine ⟨past, hpast, ?_, ?_⟩
  · cases force with
    | true =>
      simp only [if_pos] at hpast
      rw [← Option.some.inj hpast]
      simp
    | false =>
      simp only [Bool.false_eq_true, if_false] at hpast
      exact hstore (name, past) (mem_of_lookupA hpast)
  · cases force with
    | true =>
      simp only [if_pos] at hpast
      exact Or.inr (Option.some.inj hpast).symm
    | false =>
      simp only [Bool.false_eq_true, if_false] at hpast
      exact Or.inl hpast

theorem process_components {fc : FolderChanges} {hist0 : Option FolderInfo}
    {res : Option FolderInfo × List String × List String}
    (h : process_folder_changes fc hist0 = some res) :
    res.2.1 = fc.1.map Prod.fst ∧ res.2.2 = fc.2 := by
  simp only [process_folder_changes] at h
  split at h
  · cases h
  · rename_i r hd
    injection h with h
    subst h
    exact ⟨applyMods_mods hist0 fc.1, applyDels_dels fc.2 _ r hd⟩

/-- Each scanned file's modified entry, through `folder_changes`. -/
theorem folder_changes_visit {fs : FS} {history : Store} {prereqs : List String}
    {ps : PrereqState} {force : Bool} {name ext : String} {fc : FolderChanges}
    {F : String}
    (hwf : fs.wf)
    (h : folder_changes fs history prereqs ps force name ext = some fc)
    (past : FolderInfo)
    (hpast : (if force then some [] else lookupA history name) = some past)
    (hist_ok : lookupA history name = some past ∨ past = [])
    (hF : F ∈ get_files fs (GlobPattern.mk name ext)) :
    lookupA fc.1 (relpathUnder name F) = visitResult fs prereqs ps past name F := by
  obtain ⟨past', hpast', hscan⟩ := folder_changes_eq h
  rw [hpast] at hpast'
  have hpe : past' = past := (Option.some.inj hpast').symm
  subst hpe
  exact scan_files_lookup hist_ok _ _ _ hscan (get_files_nodup _ _ hwf)
    (fun G hG => get_files_decompose hG)
    (fun G _ => rfl)
    (fun G _ => Iff.trans (contains_iff _ _) (lookupA_isSome_iff past' _).symm)
    F hF

/-- The deleted set, through `folder_changes`. -/
theorem folder_changes_deleted {fs : FS} {history : Store} {prereqs : List String}
    {ps : PrereqState} {force : Bool} {name ext : String} {fc : FolderChanges}
    (h : folder_changes fs history prereqs ps force name ext = some fc)
    (past : FolderInfo)
    (hpast : (if force then some [] else lookupA history name) = some past)
    (hpnd : (past.map Prod.fst).Nodup) :
    (∀ k, k ∈ fc.2 ↔ k ∈ past.map Prod.fst ∧
      ∀ F ∈ get_files fs (GlobPattern.mk name ext), relpathUnder name F ≠ k) ∧
    fc.2.Nodup := by
  obtain ⟨past', hpast', hscan⟩ := folder_changes_eq h
  rw [hpast] at hpast'
  have hpe : past' = past := (Option.some.inj hpast').symm
  subst hpe
  have hsnd := scan_files_snd _ _ _ hscan
  constructor
  · intro k
    rw [hsnd]
    exact erase_fold_mem _ _ _ hpnd k
  · rw [hsnd]
    exact erase_fold_nodup _ _ _ hpnd

/-- Structural well-formedness of one category's change set. -/
theorem folder_changes_wfparts {fs : FS} {history : Store} {prereqs : List String}
    {ps : PrereqState} {force : Bool} {name ext : String} {fc : FolderChanges}
    (h : folder_changes fs history prereqs ps force name ext = some fc)
    (past : FolderInfo)
    (hpast : (if force then some [] else lookupA history name) = some past)
    (hpnd : (past.map Prod.fst).Nodup) :
    (fc.1.map Prod.fst).Nodup ∧ (∀ k ∈ fc.1.map Prod.fst, k ∉ fc.2) ∧
    fc.2.Nodup := by
  obtain ⟨past', hpast', hscan⟩ := folder_changes_eq h
  rw [hpast] at hpast'
  have hpe : past' = past := (Option.some.inj hpast').symm
  subst hpe
  exact scan_files_invariant _ _ _ hscan (by simp) (by simp) hpnd

/-! ### The claims -/

/-- C10: If `create` encounters an already-existing directory while
scaffolding, it removes every directory it created earlier in that same
run, leaves pre-existing directories untouched (the directory set is
restored exactly to its initial value), writes neither `meta.json` nor
`history.json`, and exits with code 1. -/
theorem claim_C10 (dirs : List String) (h : ∃ f ∈ FOLDERS, f ∈ dirs) :
    create dirs =
      { dirs := dirs, wroteMeta := false, wroteHistory := false, exitCode := 1 } := by
  unfold create
  have hmain := createLoop_fail FOLDERS [] dirs (by simp) (by simp) (by simp)
    (by decide) h
  simpa using hmain

/-- Witness for C10, at a directory set already containing `site`. -/
theorem claim_C10_witness :
    (∃ f ∈ FOLDERS, f ∈ ["site", "docs"]) ∧
    create ["site", "docs"] =
      { dirs := ["site", "docs"], wroteMeta := false, wroteHistory := false,
        exitCode := 1 } :=
  ⟨by decide, claim_C10 ["site", "docs"] (by decide)⟩

/-- C9: Reconciling any change set without a store section invokes the
modified handler exactly once per modified entry (in order) and the
deleted handler exactly once per deleted entry, and returns no store
section: no fingerprint is written, updated, or removed. -/
theorem claim_C9 (fc : FolderChanges) :
    process_folder_changes fc none = some (none, fc.1.map Prod.fst, fc.2) :=
  process_folder_changes_none fc

/-- C8: For every change set produced by a run, no path is both in the
modified map and the deleted set, and any reconciliation of it calls the
modified handler at most once per path, the deleted handler at most once
per path, and never both for the same path. -/
theorem claim_C8 {fs : FS} {history : Store} {meta : MetaCfg} {force : Bool}
    {all : List (String × FolderChanges)} {name : String} {fc : FolderChanges}
    (hstore : StoreWf history)
    (hgc : get_changes fs history meta force = some all)
    (hfc : lookupA all name = some fc) :
    (∀ k, (lookupA fc.1 k).isSome = true → k ∉ fc.2) ∧
    (∀ hist0 res, process_folder_changes fc hist0 = some res →
      res.2.1.Nodup ∧ res.2.2.Nodup ∧ ∀ x ∈ res.2.1, x ∉ res.2.2) := by
  obtain ⟨ps, hps, t, p, a, d, ht, hp, ha, hd, hall⟩ := get_changes_eq hgc
  have hone : folder_changes fs history ((build_dep_tree fs meta).map Prod.fst)
      ps force name "dummy" = some fc ∨
      ∃ ext, folder_changes fs history ((build_dep_tree fs meta).map Prod.fst)
        ps force name ext = some fc := by
    subst hall
    rcases lookupA_four hfc with ⟨rfl, rfl⟩ | ⟨rfl, rfl⟩ | ⟨rfl, rfl⟩ | ⟨rfl, rfl⟩
    · exact Or.inr ⟨".html", ht⟩
    · exact Or.inr ⟨".md", hp⟩
    · exact Or.inr ⟨"", ha⟩
    · exact Or.inr ⟨".json", hd⟩
  have hfcsome : ∃ ext, folder_changes fs history
      ((build_dep_tree fs meta).map Prod.fst) ps force name ext = some fc := by
    rcases hone with h | h
    · exact ⟨"dummy", h⟩
    · exact h
  obtain ⟨ext, hfold⟩ := hfcsome
  obtain ⟨past, hpast, hpnd, _⟩ := folder_changes_past hfold hstore
  obtain ⟨hknd, hdisj, hdnd⟩ := folder_changes_wfparts hfold past hpast hpnd
  constructor
  · intro k hk
    exact hdisj k ((lookupA_isSome_iff fc.1 k).mp hk)
  · intro hist0 res hres
    obtain ⟨hm, hd2⟩ := process_components hres
    rw [hm, hd2]
    exact ⟨hknd, hdnd, hdisj⟩

/-- Witness for C8: a run over a one-file `posts` tree. -/
theorem claim_C8_witness :
    StoreWf [("templates", []), ("posts", []), ("assets", []), ("data", [])] ∧
    get_changes (FS.mk [("posts\\a.md", FileData.mk 1 "A")])
      [("templates", []), ("posts", []), ("assets", []), ("data", [])]
      (MetaCfg.mk []) false =
      some [("templates", ([], [])),
            ("posts", ([("a.md", FileInfo.mk 1 "A")], [])),
            ("assets", ([], [])), ("data", ([], []))] ∧
    lookupA [("templates", ([], [])),
            ("posts", ([("a.md", FileInfo.mk 1 "A")], [])),
            ("assets", ([], [])), ("data", ([], []))] "posts" =
      some (([("a.md", FileInfo.mk 1 "A")], []) : FolderChanges) ∧
    ((∀ k, (lookupA ([("a.md", FileInfo.mk 1 "A")] : FolderInfo) k).isSome = true →
        k ∉ ([] : List String)) ∧
     (∀ hist0 res, process_folder_changes
        (([("a.md", FileInfo.mk 1 "A")], []) : FolderChanges) hist0 = some res →
      res.2.1.Nodup ∧ res.2.2.Nodup ∧ ∀ x ∈ res.2.1, x ∉ res.2.2)) := by
  have hstore : StoreWf [("templates", []), ("posts", []), ("assets", []),
      ("data", [])] := by
    unfold StoreWf
    decide
  refine ⟨hstore, rfl, rfl, ?_⟩
  exact @claim_C8 (FS.mk [("posts\\a.md", FileData.mk 1 "A")])
    [("templates", []), ("posts", []), ("assets", []), ("data", [])]
    (MetaCfg.mk []) false
    [("templates", ([], [])),
     ("posts", ([("a.md", FileInfo.mk 1 "A")], [])),
     ("assets", ([], [])), ("data", ([], []))]
    "posts" (([("a.md", FileInfo.mk 1 "A")], []) : FolderChanges)
    hstore rfl rfl
/-- A prerequisite that is not forced and whose fingerprint comparison
finds no change is never marked as a changed prerequisite. -/
theorem prereq_scan_unchanged_not_marked {fs : FS} {history : Store}
    {Q fqf fqr : String} {fp : FileInfo}
    (hpt : path_toss Q = some (fqf, fqr))
    (hsect : ∀ finfo, lookupA history fqf = some finfo → lookupA finfo fqr = some fp)
    (hgc0 : _get_changes fs Q (some fp) = none)
    (l : List (String × List String)) :
    ∀ st ps, prereq_scan fs history st l = some ps →
    Q ∉ st.prereq_changed → Q ∉ ps.recompile → Q ∉ ps.prereq_changed := by
  induction l with
  | nil =>
    intro st ps h hst _
    simp only [prereq_scan] at h
    cases h
    exact hst
  | cons e rest ih =>
    intro st ps h hst hrec
    obtain ⟨prereq, dependents⟩ := e
    rw [prereq_scan] at h
    split at h
    · cases h
    · rename_i fr hpt0
      split at h
      · cases h
      · rename_i ph hh
        split at h
        · rename_i pc hg
          have hne : prereq ≠ Q := by
            intro he
            subst he
            have hQrec : prereq ∉ st.recompile := by
              intro hmem
              have hmono := prereq_scan_mono rest _ _ h
              exact hrec (hmono.1 prereq (by simp [hmem]))
            unfold prereq_history_of at hh
            rw [if_neg (by simpa using hQrec)] at hh
            rw [hpt] at hpt0
            injection hpt0 with hpt0
            subst hpt0
            split at hh
            · cases hh
            · rename_i finfo hf
              split at hh
              · cases hh
              · rename_i past0 hfp0
                have hfp := hsect finfo hf
                have hpe : past0 = fp :=
                  Option.some.inj
                    ((show lookupA finfo fqr = some past0 from hfp0).symm.trans hfp)
                subst hpe
                injection hh with hh
                subst hh
                rw [hgc0] at hg
                cases hg
          refine ih _ _ h ?_ hrec
          simp only [List.mem_append, List.mem_singleton]
          rintro (hm | rfl)
          · exact hst hm
          · exact hne rfl
        · exact ih _ _ h hst hrec

/-- C5: A tracked file whose modification time advanced but whose content
hash is unchanged, and which is neither new nor forced by the cascade, gets
no modified entry in its category's change set. -/
theorem claim_C5 {fs : FS} {history : Store} {meta : MetaCfg}
    {all : List (String × FolderChanges)} {name ext : String}
    {fc : FolderChanges} {F : String} {past : FolderInfo}
    {fp : FileInfo} {fd : FileData} {ps : PrereqState}
    (hwf : fs.wf)
    (hgc : get_changes fs history meta false = some all)
    (hne : (name, ext) ∈ categoryExts)
    (hfc : lookupA all name = some fc)
    (hF : F ∈ get_files fs (GlobPattern.mk name ext))
    (hpast : lookupA history name = some past)
    (hfp : lookupA past (relpathUnder name F) = some fp)
    (hfd : lookupA fs.files F = some fd)
    (hmt : fp.mod_date < fd.mtime)
    (hhash : fp.hash = md5 fd.content)
    (hps : prereq_scan fs history (PrereqState.mk [] [] [])
      (build_dep_tree fs meta) = some ps)
    (hforced : F ∉ ps.recompile) :
    lookupA fc.1 (relpathUnder name F) = none := by
  obtain ⟨ps', hps', hfold⟩ := get_changes_category hgc hne hfc
  have hpe : ps' = ps := Option.some.inj (hps'.symm.trans hps)
  subst hpe
  have hpast' : (if false then some [] else lookupA history name) = some past := by
    simpa using hpast
  have hvisit := folder_changes_visit hwf hfold past hpast' (Or.inl hpast) hF
  rw [hvisit]
  have hgc0 : _get_changes fs F (some fp) = none := by
    simp only [_get_changes, hfd, if_pos hmt]
    rw [if_neg (by simp [hhash])]
  have hnosep : ∀ c ∈ name.data, ¬(c = '\\' ∨ c = '/') := by
    fin_cases hne <;> decide
  have hdecF : F = name ++ "\\" ++ relpathUnder name F := get_files_decompose hF
  have hpt : path_toss F = some (name, relpathUnder name F) := by
    conv_lhs => rw [hdecF]
    exact path_toss_cat name (relpathUnder name F) hnosep
  simp only [visitResult]
  rw [hfp]
  by_cases hpre : ((build_dep_tree fs meta).map Prod.fst).contains F = true
  · rw [if_pos hpre]
    have hmark : F ∉ ps'.prereq_changed := by
      refine prereq_scan_unchanged_not_marked hpt ?_ hgc0 _ _ _ hps' (by simp)
        hforced
      intro finfo hfin
      rw [hpast] at hfin
      rw [← Option.some.inj hfin]
      exact hfp
    rw [if_neg (by simpa using hmark)]
  · rw [if_neg hpre]
    have hcond : (¬ ps'.recompile.contains F = true) ∨
        ((some fp).isNone = true) := Or.inl (by simpa using hforced)
    rw [if_pos hcond]
    have hfpcond : (if ((some fp).isNone = true) ∨ ps'.recompile.contains F = true
        then (none : Option FileInfo) else some fp) = some fp := by
      rw [if_neg ?hneg]
      case hneg =>
        rintro (hno | hrec)
        · cases hno
        · exact (by simpa using hforced : ¬ ps'.recompile.contains F = true) hrec
    rw [hfpcond, hgc0]

/-- Witness for C5: `posts\a.md` has a newer modification time but identical
content hash; it produces no modified entry. -/
theorem claim_C5_witness :
    (FS.mk [("posts\\a.md", FileData.mk 2 "A")]).wf ∧
    get_changes (FS.mk [("posts\\a.md", FileData.mk 2 "A")])
      [("templates", []), ("posts", [("a.md", FileInfo.mk 1 "A")]),
       ("assets", []), ("data", [])] (MetaCfg.mk []) false =
      some [("templates", ([], [])), ("posts", ([], [])),
            ("assets", ([], [])), ("data", ([], []))] ∧
    ("posts", ".md") ∈ categoryExts ∧
    lookupA [("templates", ([], [])), ("posts", ([], [])),
             ("assets", ([], [])), ("data", ([], []))] "posts" =
      some (([], []) : FolderChanges) ∧
    "posts\\a.md" ∈ get_files (FS.mk [("posts\\a.md", FileData.mk 2 "A")])
      (GlobPattern.mk "posts" ".md") ∧
    lookupA [("templates", []), ("posts", [("a.md", FileInfo.mk 1 "A")]),
             ("assets", []), ("data", [])] "posts" =
      some [("a.md", FileInfo.mk 1 "A")] ∧
    lookupA [("a.md", FileInfo.mk 1 "A")]
      (relpathUnder "posts" "posts\\a.md") = some (FileInfo.mk 1 "A") ∧
    lookupA (FS.mk [("posts\\a.md", FileData.mk 2 "A")]).files "posts\\a.md" =
      some (FileData.mk 2 "A") ∧
    (FileInfo.mk 1 "A").mod_date < (FileData.mk 2 "A").mtime ∧
    (FileInfo.mk 1 "A").hash = md5 (FileData.mk 2 "A").content ∧
    prereq_scan (FS.mk [("posts\\a.md", FileData.mk 2 "A")])
      [("templates", []), ("posts", [("a.md", FileInfo.mk 1 "A")]),
       ("assets", []), ("data", [])] (PrereqState.mk [] [] [])
      (build_dep_tree (FS.mk [("posts\\a.md", FileData.mk 2 "A")])
        (MetaCfg.mk [])) = some (PrereqState.mk [] [] []) ∧
    "posts\\a.md" ∉ (PrereqState.mk [] [] []).recompile ∧
    lookupA (([], []) : FolderChanges).1 (relpathUnder "posts" "posts\\a.md") =
      none := by
  have hwf : (FS.mk [("posts\\a.md", FileData.mk 2 "A")]).wf := by
    unfold FS.wf
    decide
  have hgc : get_changes (FS.mk [("posts\\a.md", FileData.mk 2 "A")])
      [("templates", []), ("posts", [("a.md", FileInfo.mk 1 "A")]),
       ("assets", []), ("data", [])] (MetaCfg.mk []) false =
      some [("templates", ([], [])), ("posts", ([], [])),
            ("assets", ([], [])), ("data", ([], []))] := rfl
  have hne : ("posts", ".md") ∈ categoryExts := by decide
  have hF : "posts\\a.md" ∈ get_files (FS.mk [("posts\\a.md", FileData.mk 2 "A")])
      (GlobPattern.mk "posts" ".md") := by decide
  have hps : prereq_scan (FS.mk [("posts\\a.md", FileData.mk 2 "A")])
      [("templates", []), ("posts", [("a.md", FileInfo.mk 1 "A")]),
       ("assets", []), ("data", [])] (PrereqState.mk [] [] [])
      (build_dep_tree (FS.mk [("posts\\a.md", FileData.mk 2 "A")])
        (MetaCfg.mk [])) = some (PrereqState.mk [] [] []) := rfl
  refine ⟨hwf, hgc, hne, rfl, hF, rfl, rfl, rfl, by decide, rfl, hps,
    by decide, ?_⟩
  exact claim_C5 hwf hgc hne rfl hF rfl rfl rfl (by decide) rfl hps (by decide)

/-- C2 (amended): A file forced into the modified set by the cascade that is
not new and not itself a declared prerequisite has the PREVIOUSLY STORED
fingerprint recorded in its category's change set — not a freshly computed
one — even when its own content changed. -/
theorem claim_C2 {fs : FS} {history : Store} {meta : MetaCfg}
    {all : List (String × FolderChanges)} {name ext : String}
    {fc : FolderChanges} {F : String} {past : FolderInfo}
    {fpOld : FileInfo} {ps : PrereqState}
    (hwf : fs.wf)
    (hgc : get_changes fs history meta false = some all)
    (hne : (name, ext) ∈ categoryExts)
    (hfc : lookupA all name = some fc)
    (hF : F ∈ get_files fs (GlobPattern.mk name ext))
    (hpast : lookupA history name = some past)
    (hfpOld : lookupA past (relpathUnder name F) = some fpOld)
    (hps : prereq_scan fs history (PrereqState.mk [] [] [])
      (build_dep_tree fs meta) = some ps)
    (hforced : F ∈ ps.recompile)
    (hnotpre : F ∉ (build_dep_tree fs meta).map Prod.fst) :
    lookupA fc.1 (relpathUnder name F) = some fpOld := by
  obtain ⟨ps', hps', hfold⟩ := get_changes_category hgc hne hfc
  have hpe : ps' = ps := Option.some.inj (hps'.symm.trans hps)
  subst hpe
  have hpast' : (if false then some [] else lookupA history name) = some past := by
    simpa using hpast
  have hvisit := folder_changes_visit hwf hfold past hpast' (Or.inl hpast) hF
  rw [hvisit]
  simp only [visitResult]
  rw [if_neg (by simpa using hnotpre)]
  rw [hfpOld]
  have hcond : ¬ ((¬ ps'.recompile.contains F = true) ∨
      ((some fpOld).isNone = true)) := by
    rintro (h | h)
    · exact h (by simpa using hforced)
    · cases h
  rw [if_neg hcond]

/-- Counterexample to C2 as stated: `posts\a.md` is forced (its prerequisite
`templates\base.html` changed) and independently changed (stored hash `A1`,
fresh hash `A2`), yet the change set records the stored fingerprint
`(1, A1)` rather than the fresh one `(2, A2)`. -/
theorem claim_C2_counterexample :
    prereq_scan (FS.mk [("templates\\base.html", FileData.mk 2 "B2"),
        ("posts\\a.md", FileData.mk 2 "A2")])
      [("templates", [("base.html", FileInfo.mk 1 "B1")]),
       ("posts", [("a.md", FileInfo.mk 1 "A1")]), ("assets", []), ("data", [])]
      (PrereqState.mk [] [] [])
      (build_dep_tree (FS.mk [("templates\\base.html", FileData.mk 2 "B2"),
        ("posts\\a.md", FileData.mk 2 "A2")])
        (MetaCfg.mk [(GlobPattern.mk "posts" ".md", ["templates/base.html"])])) =
      some (PrereqState.mk ["posts\\a.md"]
        [("templates\\base.html", FileInfo.mk 2 "B2")] ["templates\\base.html"]) ∧
    "posts\\a.md" ∈ (PrereqState.mk ["posts\\a.md"]
        [("templates\\base.html", FileInfo.mk 2 "B2")]
        ["templates\\base.html"]).recompile ∧
    (FileInfo.mk 1 "A1").hash ≠ md5 (FileData.mk 2 "A2").content ∧
    (∃ all2, get_changes (FS.mk [("templates\\base.html", FileData.mk 2 "B2"),
        ("posts\\a.md", FileData.mk 2 "A2")])
      [("templates", [("base.html", FileInfo.mk 1 "B1")]),
       ("posts", [("a.md", FileInfo.mk 1 "A1")]), ("assets", []), ("data", [])]
      (MetaCfg.mk [(GlobPattern.mk "posts" ".md", ["templates/base.html"])])
      false = some all2 ∧
      ∃ fc, lookupA all2 "posts" = some fc ∧
        lookupA fc.1 "a.md" = some (FileInfo.mk 1 "A1") ∧
        lookupA fc.1 "a.md" ≠
          some (FileInfo.mk (FileData.mk 2 "A2").mtime
            (md5 (FileData.mk 2 "A2").content))) := by
  refine ⟨rfl, by decide, by decide, ?_⟩
  refine ⟨[("templates", ([("base.html", FileInfo.mk 2 "B2")], [])),
    ("posts", ([("a.md", FileInfo.mk 1 "A1")], [])),
    ("assets", ([], [])), ("data", ([], []))], rfl,
    (([("a.md", FileInfo.mk 1 "A1")], []) : FolderChanges), rfl, rfl, by decide⟩

/-- Witness for C2 (amended): in the same scenario the theorem yields the
stored fingerprint. -/
theorem claim_C2_witness :
    (FS.mk [("templates\\base.html", FileData.mk 2 "B2"),
        ("posts\\a.md", FileData.mk 2 "A2")]).wf ∧
    get_changes (FS.mk [("templates\\base.html", FileData.mk 2 "B2"),
        ("posts\\a.md", FileData.mk 2 "A2")])
      [("templates", [("base.html", FileInfo.mk 1 "B1")]),
       ("posts", [("a.md", FileInfo.mk 1 "A1")]), ("assets", []), ("data", [])]
      (MetaCfg.mk [(GlobPattern.mk "posts" ".md", ["templates/base.html"])])
      false =
      some [("templates", ([("base.html", FileInfo.mk 2 "B2")], [])),
            ("posts", ([("a.md", FileInfo.mk 1 "A1")], [])),
            ("assets", ([], [])), ("data", ([], []))] ∧
    lookupA [("templates", ([("base.html", FileInfo.mk 2 "B2")], [])),
            ("posts", ([("a.md", FileInfo.mk 1 "A1")], [])),
            ("assets", ([], [])), ("data", ([], []))] "posts" =
      some (([("a.md", FileInfo.mk 1 "A1")], []) : FolderChanges) ∧
    lookupA (([("a.md", FileInfo.mk 1 "A1")], []) : FolderChanges).1
      (relpathUnder "posts" "posts\\a.md") = some (FileInfo.mk 1 "A1") := by
  have hwf : (FS.mk [("templates\\base.html", FileData.mk 2 "B2"),
      ("posts\\a.md", FileData.mk 2 "A2")]).wf := by
    unfold FS.wf
    decide
  refine ⟨hwf, rfl, rfl, ?_⟩
  exact @claim_C2
    (FS.mk [("templates\\base.html", FileData.mk 2 "B2"),
        ("posts\\a.md", FileData.mk 2 "A2")])
    [("templates", [("base.html", FileInfo.mk 1 "B1")]),
     ("posts", [("a.md", FileInfo.mk 1 "A1")]), ("assets", []), ("data", [])]
    (MetaCfg.mk [(GlobPattern.mk "posts" ".md", ["templates/base.html"])])
    [("templates", ([("base.html", FileInfo.mk 2 "B2")], [])),
     ("posts", ([("a.md", FileInfo.mk 1 "A1")], [])),
     ("assets", ([], [])), ("data", ([], []))]
    "posts" ".md" (([("a.md", FileInfo.mk 1 "A1")], []) : FolderChanges)
    "posts\\a.md" [("a.md", FileInfo.mk 1 "A1")] (FileInfo.mk 1 "A1")
    (PrereqState.mk ["posts\\a.md"]
      [("templates\\base.html", FileInfo.mk 2 "B2")] ["templates\\base.html"])
    hwf rfl (by decide) rfl (by decide) rfl rfl rfl (by decide) (by decide)

/-- C1 (amended): If a dependency declaration maps pattern `P` to
prerequisite `q` and `q`'s stored fingerprint is out of date (older stored
modification time and a different stored hash), then every concrete file
matching `P` that is matched by its category's scan and is NOT itself a
declared prerequisite appears in that category's modified map, even when
its own content is unchanged. -/
theorem claim_C1 {fs : FS} {history : Store} {meta : MetaCfg}
    {all : List (String × FolderChanges)} {name ext : String}
    {fc : FolderChanges} {F : String} {P : GlobPattern} {qs : List String}
    {q qf qr : String} {qsect : FolderInfo} {fpQ : FileInfo} {fdQ : FileData}
    (hwf : fs.wf)
    (hgc : get_changes fs history meta false = some all)
    (hPq : (P, qs) ∈ meta.deps)
    (hq : q ∈ qs)
    (hpt : path_toss (normSlash q) = some (qf, qr))
    (hqf : lookupA history qf = some qsect)
    (hqr : lookupA qsect qr = some fpQ)
    (hfdQ : lookupA fs.files (normSlash q) = some fdQ)
    (hmt : fpQ.mod_date < fdQ.mtime)
    (hhash : fpQ.hash ≠ md5 fdQ.content)
    (hne : (name, ext) ∈ categoryExts)
    (hfc : lookupA all name = some fc)
    (hFP : F ∈ get_files fs P)
    (hF : F ∈ get_files fs (GlobPattern.mk name ext))
    (hnotpre : F ∉ (build_dep_tree fs meta).map Prod.fst) :
    (lookupA fc.1 (relpathUnder name F)).isSome = true := by
  obtain ⟨deps, hdt, hFdeps⟩ := build_dep_tree_covers hPq hq F hFP
  have hmem : (normSlash q, deps) ∈ build_dep_tree fs meta := mem_of_lookupA hdt
  obtain ⟨ps, hps, hfold⟩ := get_changes_category hgc hne hfc
  have hsect : ∀ finfo, lookupA history qf = some finfo →
      lookupA finfo qr = some fpQ := by
    intro finfo hf
    rw [hqf] at hf
    rw [← Option.some.inj hf]
    exact hqr
  have hforced : F ∈ ps.recompile :=
    (prereq_scan_fires hfdQ hpt hsect hmt hhash _ _ _ hps hmem).1 F hFdeps
  obtain ⟨past, hpast, hscan⟩ := folder_changes_eq hfold
  have hpast2 : lookupA history name = some past := by
    simpa using hpast
  have hvisit := folder_changes_visit hwf hfold past hpast (Or.inl hpast2) hF
  rw [hvisit]
  simp only [visitResult]
  rw [if_neg (by simpa using hnotpre)]
  by_cases hnew : (lookupA past (relpathUnder name F)).isNone = true
  · rw [if_pos (Or.inr hnew)]
    rw [if_pos (Or.inl hnew)]
    obtain ⟨fd, hfd⟩ := Option.isSome_iff_exists.mp (get_files_mem_fs hF)
    simp [_get_changes, hfd]
  · have hrecT : ps.recompile.contains F = true := by simpa using hforced
    have hcond : ¬ ((¬ ps.recompile.contains F = true) ∨
        ((lookupA past (relpathUnder name F)).isNone = true)) := by
      rintro (h | h)
      · exact h hrecT
      · exact hnew h
    rw [if_neg hcond]
    rw [Option.isSome_iff_ne_none]
    intro he
    exact hnew (by simp [he])

/-- Counterexample to C1 as stated: `posts\a.md` matches the pattern
`posts/**/*.md` whose prerequisite `templates/base.html` changed, but since
`posts\a.md` is itself a declared prerequisite (of the `assets` pattern,
processed earlier) with unchanged content, it is skipped by the scan and
does NOT appear in the posts modified map. -/
theorem claim_C1_counterexample :
    ((GlobPattern.mk "posts" ".md", ["templates/base.html"]) ∈
      (MetaCfg.mk [(GlobPattern.mk "assets" "", ["posts/a.md"]),
        (GlobPattern.mk "posts" ".md", ["templates/base.html"])]).deps) ∧
    lookupA [("base.html", FileInfo.mk 1 "B1")] "base.html" =
      some (FileInfo.mk 1 "B1") ∧
    lookupA (FS.mk [("templates\\base.html", FileData.mk 2 "B2"),
        ("posts\\a.md", FileData.mk 1 "A1")]).files "templates\\base.html" =
      some (FileData.mk 2 "B2") ∧
    (FileInfo.mk 1 "B1").mod_date < (FileData.mk 2 "B2").mtime ∧
    (FileInfo.mk 1 "B1").hash ≠ md5 (FileData.mk 2 "B2").content ∧
    "posts\\a.md" ∈ get_files (FS.mk [("templates\\base.html", FileData.mk 2 "B2"),
        ("posts\\a.md", FileData.mk 1 "A1")]) (GlobPattern.mk "posts" ".md") ∧
    (∃ all2, get_changes (FS.mk [("templates\\base.html", FileData.mk 2 "B2"),
        ("posts\\a.md", FileData.mk 1 "A1")])
      [("templates", [("base.html", FileInfo.mk 1 "B1")]),
       ("posts", [("a.md", FileInfo.mk 1 "A1")]), ("assets", []), ("data", [])]
      (MetaCfg.mk [(GlobPattern.mk "assets" "", ["posts/a.md"]),
        (GlobPattern.mk "posts" ".md", ["templates/base.html"])]) false =
        some all2 ∧
      ∃ fc, lookupA all2 "posts" = some fc ∧
        lookupA fc.1 (relpathUnder "posts" "posts\\a.md") = none) := by
  refine ⟨by decide, rfl, rfl, by decide, by decide, by decide, ?_⟩
  exact ⟨[("templates", ([("base.html", FileInfo.mk 2 "B2")], [])),
    ("posts", ([], [])), ("assets", ([], [])), ("data", ([], []))], rfl,
    (([], []) : FolderChanges), rfl, rfl⟩

/-- Witness for C1 (amended): the dependent `posts\a.md` is not itself a
prerequisite and lands in the modified map when `templates\base.html`
changes. -/
theorem claim_C1_witness :
    (FS.mk [("templates\\base.html", FileData.mk 2 "B2"),
        ("posts\\a.md", FileData.mk 1 "A1")]).wf ∧
    get_changes (FS.mk [("templates\\base.html", FileData.mk 2 "B2"),
        ("posts\\a.md", FileData.mk 1 "A1")])
      [("templates", [("base.html", FileInfo.mk 1 "B1")]),
       ("posts", [("a.md", FileInfo.mk 1 "A1")]), ("assets", []), ("data", [])]
      (MetaCfg.mk [(GlobPattern.mk "posts" ".md", ["templates/base.html"])])
      false =
      some [("templates", ([("base.html", FileInfo.mk 2 "B2")], [])),
            ("posts", ([("a.md", FileInfo.mk 1 "A1")], [])),
            ("assets", ([], [])), ("data", ([], []))] ∧
    path_toss (normSlash "templates/base.html") = some ("templates", "base.html") ∧
    "posts\\a.md" ∉ (build_dep_tree
      (FS.mk [("templates\\base.html", FileData.mk 2 "B2"),
        ("posts\\a.md", FileData.mk 1 "A1")])
      (MetaCfg.mk [(GlobPattern.mk "posts" ".md",
        ["templates/base.html"])])).map Prod.fst ∧
    (lookupA (([("a.md", FileInfo.mk 1 "A1")], []) : FolderChanges).1
      (relpathUnder "posts" "posts\\a.md")).isSome = true := by
  have hwf : (FS.mk [("templates\\base.html", FileData.mk 2 "B2"),
      ("posts\\a.md", FileData.mk 1 "A1")]).wf := by
    unfold FS.wf
    decide
  refine ⟨hwf, rfl, by decide, by decide, ?_⟩
  exact @claim_C1
    (FS.mk [("templates\\base.html", FileData.mk 2 "B2"),
        ("posts\\a.md", FileData.mk 1 "A1")])
    [("templates", [("base.html", FileInfo.mk 1 "B1")]),
     ("posts", [("a.md", FileInfo.mk 1 "A1")]), ("assets", []), ("data", [])]
    (MetaCfg.mk [(GlobPattern.mk "posts" ".md", ["templates/base.html"])])
    [("templates", ([("base.html", FileInfo.mk 2 "B2")], [])),
     ("posts", ([("a.md", FileInfo.mk 1 "A1")], [])),
     ("assets", ([], [])), ("data", ([], []))]
    "posts" ".md" (([("a.md", FileInfo.mk 1 "A1")], []) : FolderChanges)
    "posts\\a.md" (GlobPattern.mk "posts" ".md") ["templates/base.html"]
    "templates/base.html" "templates" "base.html"
    [("base.html", FileInfo.mk 1 "B1")] (FileInfo.mk 1 "B1") (FileData.mk 2 "B2")
    hwf rfl (by decide) (by decide) (by decide) rfl rfl (by decide) (by decide)
    (by decide) (by decide) rfl (by decide) (by decide) (by decide)

/-- C3 (amended): A declared prerequisite path that does not exist on the
filesystem is treated as UNCHANGED, not changed: when the run completes
(which it does whenever every store lookup made by the prerequisite loop
succeeds), the missing prerequisite is never marked as a changed
prerequisite, so it forces no dependents into the modified classification. -/
theorem claim_C3 {fs : FS} {history : Store} {meta : MetaCfg}
    {all : List (String × FolderChanges)} {Q : String} {ps : PrereqState}
    (hgc : get_changes fs history meta false = some all)
    (hmiss : lookupA fs.files Q = none)
    (hps : prereq_scan fs history (PrereqState.mk [] [] [])
      (build_dep_tree fs meta) = some ps) :
    Q ∉ ps.prereq_changed := by
  obtain ⟨ps', hps', _⟩ := get_changes_eq hgc
  have hpe : ps' = ps := Option.some.inj (hps'.symm.trans hps)
  subst hpe
  exact prereq_scan_missing_not_changed hmiss _ _ _ hps' (by simp)

/-- Counterexample to C3 as stated: `templates\gone.html` is a declared
prerequisite of `posts/**/*.md`, is present in the store, and is absent
from the filesystem; the scan does not raise, but its dependent
`posts\a.md` is NOT forced into the modified classification — the whole
change set is empty. -/
theorem claim_C3_counterexample :
    ((GlobPattern.mk "posts" ".md", ["templates/gone.html"]) ∈
      (MetaCfg.mk [(GlobPattern.mk "posts" ".md",
        ["templates/gone.html"])]).deps) ∧
    lookupA (FS.mk [("posts\\a.md", FileData.mk 1 "A")]).files
      "templates\\gone.html" = none ∧
    "posts\\a.md" ∈ get_files (FS.mk [("posts\\a.md", FileData.mk 1 "A")])
      (GlobPattern.mk "posts" ".md") ∧
    (∃ all2, get_changes (FS.mk [("posts\\a.md", FileData.mk 1 "A")])
      [("templates", [("gone.html", FileInfo.mk 1 "G")]),
       ("posts", [("a.md", FileInfo.mk 1 "A")]), ("assets", []), ("data", [])]
      (MetaCfg.mk [(GlobPattern.mk "posts" ".md", ["templates/gone.html"])])
      false = some all2 ∧
      ∃ fc, lookupA all2 "posts" = some fc ∧
        lookupA fc.1 (relpathUnder "posts" "posts\\a.md") = none) := by
  refine ⟨by decide, rfl, by decide, ?_⟩
  exact ⟨[("templates", ([], ["gone.html"])), ("posts", ([], [])),
    ("assets", ([], [])), ("data", ([], []))], rfl,
    (([], []) : FolderChanges), rfl, rfl⟩

/-- Witness for C3 (amended): the missing prerequisite is not marked
changed in that same run. -/
theorem claim_C3_witness :
    get_changes (FS.mk [("posts\\a.md", FileData.mk 1 "A")])
      [("templates", [("gone.html", FileInfo.mk 1 "G")]),
       ("posts", [("a.md", FileInfo.mk 1 "A")]), ("assets", []), ("data", [])]
      (MetaCfg.mk [(GlobPattern.mk "posts" ".md", ["templates/gone.html"])])
      false =
      some [("templates", ([], ["gone.html"])), ("posts", ([], [])),
            ("assets", ([], [])), ("data", ([], []))] ∧
    lookupA (FS.mk [("posts\\a.md", FileData.mk 1 "A")]).files
      "templates\\gone.html" = none ∧
    prereq_scan (FS.mk [("posts\\a.md", FileData.mk 1 "A")])
      [("templates", [("gone.html", FileInfo.mk 1 "G")]),
       ("posts", [("a.md", FileInfo.mk 1 "A")]), ("assets", []), ("data", [])]
      (PrereqState.mk [] [] [])
      (build_dep_tree (FS.mk [("posts\\a.md", FileData.mk 1 "A")])
        (MetaCfg.mk [(GlobPattern.mk "posts" ".md",
          ["templates/gone.html"])])) = some (PrereqState.mk [] [] []) ∧
    "templates\\gone.html" ∉ (PrereqState.mk [] [] []).prereq_changed := by
  refine ⟨rfl, rfl, rfl, ?_⟩
  exact @claim_C3
    (FS.mk [("posts\\a.md", FileData.mk 1 "A")])
    [("templates", [("gone.html", FileInfo.mk 1 "G")]),
     ("posts", [("a.md", FileInfo.mk 1 "A")]), ("assets", []), ("data", [])]
    (MetaCfg.mk [(GlobPattern.mk "posts" ".md", ["templates/gone.html"])])
    [("templates", ([], ["gone.html"])), ("posts", ([], [])),
     ("assets", ([], [])), ("data", ([], []))]
    "templates\\gone.html" (PrereqState.mk [] [] [])
    rfl rfl rfl

/-- `applyDels` succeeds when the deleted paths are distinct keys of the
section. -/
theorem applyDels_isSome (l : List String) :
    ∀ h0 : FolderInfo, (h0.map Prod.fst).Nodup → l.Nodup →
    (∀ d ∈ l, d ∈ h0.map Prod.fst) →
    (applyDels (some h0) l).isSome = true := by
  induction l with
  | nil => intro h0 _ _ _; simp [applyDels]
  | cons d rest ih =>
    intro h0 hnd hlnd hsub
    cases h0 with
    | nil => exact absurd (hsub d (by simp)) (by simp)
    | cons e0 es0 =>
      obtain ⟨h0', hpop⟩ := Option.isSome_iff_exists.mp
        ((popA_isSome_iff (e0 :: es0) d).mpr (hsub d (by simp)))
      simp only [applyDels, hpop]
      have hsub' : ∀ d' ∈ rest, d' ∈ h0'.map Prod.fst := by
        intro d' hd'
        have hne : d' ≠ d := by
          intro he
          subst he
          exact (List.nodup_cons.mp hlnd).1 hd'
        rw [← lookupA_isSome_iff, lookupA_popA_ne hpop hne, lookupA_isSome_iff]
        exact hsub d' (by simp [hd'])
      have := ih h0' (keys_popA_nodup hpop hnd) (List.nodup_cons.mp hlnd).2 hsub'
      obtain ⟨r', hr'⟩ := Option.isSome_iff_exists.mp this
      rw [hr']
      rfl

/-- Incremental reconciliation of a well-formed change set against its own
section always succeeds. -/
theorem process_some_isSome {fc : FolderChanges} {sect : FolderInfo}
    (hmnd : (fc.1.map Prod.fst).Nodup) (hsnd : (sect.map Prod.fst).Nodup)
    (hdnd : fc.2.Nodup) (hsub : ∀ d ∈ fc.2, d ∈ sect.map Prod.fst) :
    (process_folder_changes fc (some sect)).isSome = true := by
  by_cases hse : sect = []
  · rw [hse, process_emptysec]
    rfl
  simp only [process_folder_changes, applyMods_some fc.1 sect hse]
  have hsub' : ∀ d ∈ fc.2,
      d ∈ (fc.1.foldl (fun hh p => insertA hh p.1 p.2) sect).map Prod.fst := by
    intro d hd
    rw [← lookupA_isSome_iff, foldl_insert_lookup fc.1 sect d hmnd]
    cases hl : lookupA fc.1 d with
    | some v => rfl
    | none =>
      rw [lookupA_isSome_iff]
      exact hsub d hd
  have := applyDels_isSome fc.2 _ (foldl_insert_nodup fc.1 sect hsnd) hdnd hsub'
  obtain ⟨r, hr⟩ := Option.isSome_iff_exists.mp this
  rw [hr]
  rfl

/-- C7: A path tracked in a category's section of the store whose file no
longer exists on disk produces exactly one deletion entry in that
category's change set, and reconciling the change set against that section
succeeds and removes the key from the section. -/
theorem claim_C7 {fs : FS} {history : Store} {meta : MetaCfg}
    {all : List (String × FolderChanges)} {name ext : String}
    {fc : FolderChanges} {pth : String} {past : FolderInfo}
    (hstore : StoreWf history)
    (hgc : get_changes fs history meta false = some all)
    (hne : (name, ext) ∈ categoryExts)
    (hfc : lookupA all name = some fc)
    (hpast : lookupA history name = some past)
    (hmem : pth ∈ past.map Prod.fst)
    (hgone : lookupA fs.files (name ++ "\\" ++ pth) = none) :
    fc.2.count pth = 1 ∧
    ∃ res, process_folder_changes fc (some past) = some res ∧
      ∃ sect', res.1 = some sect' ∧ lookupA sect' pth = none := by
  obtain ⟨ps, hps, hfold⟩ := get_changes_category hgc hne hfc
  have hpast' : (if false then some [] else lookupA history name) = some past := by
    simpa using hpast
  have hpnd : (past.map Prod.fst).Nodup :=
    hstore (name, past) (mem_of_lookupA hpast)
  obtain ⟨hdeliff, hdelnd⟩ := folder_changes_deleted hfold past hpast' hpnd
  have hnorel : ∀ F ∈ get_files fs (GlobPattern.mk name ext),
      relpathUnder name F ≠ pth := by
    intro F hF he
    have hdecF : F = name ++ "\\" ++ relpathUnder name F := get_files_decompose hF
    rw [he] at hdecF
    have hFfs : (lookupA fs.files F).isSome = true := get_files_mem_fs hF
    rw [hdecF, hgone] at hFfs
    cases hFfs
  have hdmem : pth ∈ fc.2 := (hdeliff pth).mpr ⟨hmem, hnorel⟩
  obtain ⟨hknd, hdisj, _⟩ := folder_changes_wfparts hfold past hpast' hpnd
  refine ⟨List.count_eq_one_of_mem hdelnd hdmem, ?_⟩
  have hsub : ∀ d ∈ fc.2, d ∈ past.map Prod.fst := by
    intro d hd
    exact ((hdeliff d).mp hd).1
  obtain ⟨res, hres⟩ := Option.isSome_iff_exists.mp
    (process_some_isSome hknd hpnd hdelnd hsub)
  have hpastne : past ≠ [] := by
    intro he
    rw [he] at hmem
    simp at hmem
  obtain ⟨_, _, sect', hsect', hdel, _, _⟩ :=
    process_some_store hres hknd hpnd hpastne
  exact ⟨res, hres, sect', hsect', hdel pth hdmem⟩

/-- Witness for C7: stored `posts\old.md` no longer exists on disk. -/
theorem claim_C7_witness :
    (FS.mk [("posts\\a.md", FileData.mk 1 "A")]).wf ∧
    StoreWf [("templates", []),
      ("posts", [("a.md", FileInfo.mk 1 "A"), ("old.md", FileInfo.mk 1 "O")]),
      ("assets", []), ("data", [])] ∧
    get_changes (FS.mk [("posts\\a.md", FileData.mk 1 "A")])
      [("templates", []),
       ("posts", [("a.md", FileInfo.mk 1 "A"), ("old.md", FileInfo.mk 1 "O")]),
       ("assets", []), ("data", [])] (MetaCfg.mk []) false =
      some [("templates", ([], [])), ("posts", ([], ["old.md"])),
            ("assets", ([], [])), ("data", ([], []))] ∧
    lookupA (FS.mk [("posts\\a.md", FileData.mk 1 "A")]).files
      ("posts" ++ "\\" ++ "old.md") = none ∧
    ((([], ["old.md"]) : FolderChanges).2.count "old.md" = 1 ∧
     ∃ res, process_folder_changes (([], ["old.md"]) : FolderChanges)
        (some [("a.md", FileInfo.mk 1 "A"), ("old.md", FileInfo.mk 1 "O")]) =
        some res ∧
      ∃ sect', res.1 = some sect' ∧ lookupA sect' "old.md" = none) := by
  have hwf : (FS.mk [("posts\\a.md", FileData.mk 1 "A")]).wf := by
    unfold FS.wf
    decide
  have hstore : StoreWf [("templates", []),
      ("posts", [("a.md", FileInfo.mk 1 "A"), ("old.md", FileInfo.mk 1 "O")]),
      ("assets", []), ("data", [])] := by
    unfold StoreWf
    decide
  refine ⟨hwf, hstore, rfl, rfl, ?_⟩
  exact @claim_C7
    (FS.mk [("posts\\a.md", FileData.mk 1 "A")])
    [("templates", []),
     ("posts", [("a.md", FileInfo.mk 1 "A"), ("old.md", FileInfo.mk 1 "O")]),
     ("assets", []), ("data", [])]
    (MetaCfg.mk [])
    [("templates", ([], [])), ("posts", ([], ["old.md"])),
     ("assets", ([], [])), ("data", ([], []))]
    "posts" ".md" (([], ["old.md"]) : FolderChanges) "old.md"
    [("a.md", FileInfo.mk 1 "A"), ("old.md", FileInfo.mk 1 "O")]
    hstore rfl (by decide) rfl rfl (by decide) rfl

/-- C6 (amended): With an empty dependency declaration, a full
(non-incremental) scan yields, for every category, exactly one modified
entry per file matching that category's extension filter and an empty
deleted set, regardless of what the persisted store contains. -/
theorem claim_C6 {fs : FS} {history : Store} {meta : MetaCfg}
    (hdeps : meta.deps = []) (hwf : fs.wf) :
    ∃ t p a d,
      get_changes fs history meta true =
        some [("templates", (t, [])), ("posts", (p, [])),
              ("assets", (a, [])), ("data", (d, []))] ∧
      t.length = (get_files fs (GlobPattern.mk "templates" ".html")).length ∧
      p.length = (get_files fs (GlobPattern.mk "posts" ".md")).length ∧
      a.length = (get_files fs (GlobPattern.mk "assets" "")).length ∧
      d.length = (get_files fs (GlobPattern.mk "data" ".json")).length := by
  have hdt : build_dep_tree fs meta = [] := by
    rw [build_dep_tree, hdeps]
    rfl
  have hcat : ∀ name ext : String,
      ∃ ch, folder_changes fs history [] (PrereqState.mk [] [] []) true name ext =
        some (ch, []) ∧ ch.length = (get_files fs (GlobPattern.mk name ext)).length := by
    intro name ext
    obtain ⟨ch, hch, hlen⟩ := @scan_files_force_count fs history name
      (get_files fs (GlobPattern.mk name ext)) []
      (fun F hF => get_files_mem_fs hF)
      (fun F hF => get_files_decompose hF)
      (get_files_nodup _ _ hwf)
      (by simp)
    refine ⟨ch, ?_, by simpa using hlen⟩
    unfold folder_changes
    have hp : (if true then some ([] : FolderInfo) else lookupA history name) =
        some [] := by simp
    rw [hp]
    exact hch
  obtain ⟨t, ht, hlt⟩ := hcat "templates" ".html"
  obtain ⟨p, hp, hlp⟩ := hcat "posts" ".md"
  obtain ⟨a, ha, hla⟩ := hcat "assets" ""
  obtain ⟨d, hd, hld⟩ := hcat "data" ".json"
  refine ⟨t, p, a, d, ?_, hlt, hlp, hla, hld⟩
  simp only [get_changes, hdt, List.map_nil, prereq_scan]
  rw [ht, hp, ha, hd]

/-- Counterexample to C6 as stated: under a forced scan, the directory
`templates` contains exactly one matching file, but since that file is a
declared prerequisite whose stored fingerprint is unchanged, the change set
has zero modified entries instead of one. -/
theorem claim_C6_counterexample :
    (get_files (FS.mk [("templates\\base.html", FileData.mk 1 "B")])
      (GlobPattern.mk "templates" ".html")).length = 1 ∧
    get_changes (FS.mk [("templates\\base.html", FileData.mk 1 "B")])
      [("templates", [("base.html", FileInfo.mk 1 "B")]), ("posts", []),
       ("assets", []), ("data", [])]
      (MetaCfg.mk [(GlobPattern.mk "posts" ".md", ["templates/base.html"])])
      true =
      some [("templates", ([], [])), ("posts", ([], [])),
            ("assets", ([], [])), ("data", ([], []))] ∧
    lookupA [("templates", (([], []) : FolderChanges)), ("posts", ([], [])),
             ("assets", ([], [])), ("data", ([], []))] "templates" =
      some (([], []) : FolderChanges) ∧
    ¬ ((([], []) : FolderChanges).1.length = 1) := by
  exact ⟨by decide, rfl, rfl, by decide⟩

/-- Witness for C6 (amended): one template file, empty dependency table. -/
theorem claim_C6_witness :
    (MetaCfg.mk []).deps = [] ∧
    (FS.mk [("templates\\x.html", FileData.mk 1 "X")]).wf ∧
    (∃ t p a d,
      get_changes (FS.mk [("templates\\x.html", FileData.mk 1 "X")])
        [("templates", []), ("posts", []), ("assets", []), ("data", [])]
        (MetaCfg.mk []) true =
        some [("templates", (t, [])), ("posts", (p, [])),
              ("assets", (a, [])), ("data", (d, []))] ∧
      t.length = (get_files (FS.mk [("templates\\x.html", FileData.mk 1 "X")])
        (GlobPattern.mk "templates" ".html")).length ∧
      p.length = (get_files (FS.mk [("templates\\x.html", FileData.mk 1 "X")])
        (GlobPattern.mk "posts" ".md")).length ∧
      a.length = (get_files (FS.mk [("templates\\x.html", FileData.mk 1 "X")])
        (GlobPattern.mk "assets" "")).length ∧
      d.length = (get_files (FS.mk [("templates\\x.html", FileData.mk 1 "X")])
        (GlobPattern.mk "data" ".json")).length) := by
  have hwf : (FS.mk [("templates\\x.html", FileData.mk 1 "X")]).wf := by
    unfold FS.wf
    decide
  exact ⟨rfl, hwf, claim_C6 rfl hwf⟩

/-! ### Second-run analysis (for idempotence with no dependencies) -/

/-- With no dependency declarations the entry recorded for a visited file
reduces to a plain fingerprint comparison against the stored section. -/
theorem visitResult_empty (fs : FS) (past : FolderInfo) (name F : String) :
    visitResult fs [] (PrereqState.mk [] [] []) past name F =
      _get_changes fs F (lookupA past (relpathUnder name F)) := by
  simp only [visitResult]
  rw [if_neg (by simp : ¬ (([] : List String).contains F = true))]
  rw [if_pos (Or.inl
    (by simp : ¬ (PrereqState.mk [] [] []).recompile.contains F = true))]
  by_cases hnew : (lookupA past (relpathUnder name F)).isNone = true
  · rw [if_pos (Or.inl hnew)]
    rw [Option.isNone_iff_eq_none] at hnew
    rw [hnew]
  · have hcond : ¬ (((lookupA past (relpathUnder name F)).isNone = true) ∨
        (PrereqState.mk [] [] []).recompile.contains F = true) := by
      rintro (h | h)
      · exact hnew h
      · simp at h
    rw [if_neg hcond]

/-- A recorded change always carries the file's current modification time. -/
theorem _get_changes_fresh {fs : FS} {path : String} {fp : Option FileInfo}
    {v : FileInfo} (h : _get_changes fs path fp = some v) :
    ∃ fd, lookupA fs.files path = some fd ∧ v.mod_date = fd.mtime := by
  unfold _get_changes at h
  split at h
  · cases h
  · rename_i fd hfd
    refine ⟨fd, hfd, ?_⟩
    split at h
    · injection h with h
      rw [← h]
    · split at h
      · split at h
        · injection h with h
          rw [← h]
        · cases h
      · cases h

/-- Every key of the modified map is the relative path of a scanned file. -/
theorem folder_changes_keys {fs : FS} {history : Store} {prereqs : List String}
    {ps : PrereqState} {force : Bool} {name ext : String} {fc : FolderChanges}
    (h : folder_changes fs history prereqs ps force name ext = some fc) :
    ∀ r, (lookupA fc.1 r).isSome = true →
      ∃ F ∈ get_files fs (GlobPattern.mk name ext), relpathUnder name F = r := by
  obtain ⟨past, hpast, hscan⟩ := folder_changes_eq h
  intro r hr
  rcases scan_files_keys _ _ _ hscan r hr with h0 | hex
  · simp [lookupA] at h0
  · exact hex

theorem reconcileCategory_eq {all : List (String × FolderChanges)}
    {history : Store} {name : String} {h' : Store}
    (h : reconcileCategory all history name = some h') :
    ∃ fc sect res, lookupA all name = some fc ∧ lookupA history name = some sect ∧
      process_folder_changes fc (some sect) = some res ∧
      ∃ sect', res.1 = some sect' ∧ h' = insertA history name sect' := by
  unfold reconcileCategory at h
  split at h
  · cases h
  · rename_i fc hfc
    split at h
    · cases h
    · rename_i sect hsect
      split at h
      · rename_i res sect' x y heq
        injection h with h
        exact ⟨fc, sect, (some sect', x, y), hfc, hsect, heq, sect', rfl, h.symm⟩
      · cases h

/-- With no dependency declarations, rescanning a category after its change
set has been reconciled into its own store section yields an empty change
set. -/
theorem second_scan_empty {fs : FS} {history history2 : Store} {name ext : String}
    {fc : FolderChanges} {past sect' : FolderInfo}
    (hwf : fs.wf)
    (hfold : folder_changes fs history [] (PrereqState.mk [] [] []) false
      name ext = some fc)
    (hpast : lookupA history name = some past)
    (hpnd : (past.map Prod.fst).Nodup)
    (hs_del : ∀ k ∈ fc.2, lookupA sect' k = none)
    (hs_keep : ∀ k, k ∉ fc.2 → lookupA sect' k =
      (match lookupA fc.1 k with
       | some v => some v
       | none => lookupA past k))
    (hs_nd : (sect'.map Prod.fst).Nodup)
    (hpast2 : lookupA history2 name = some sect') :
    folder_changes fs history2 [] (PrereqState.mk [] [] []) false name ext =
      some ([], []) := by
  have hps2 : (if false then some [] else lookupA history2 name) = some sect' := by
    simpa using hpast2
  have htotal : (folder_changes fs history2 [] (PrereqState.mk [] [] []) false
      name ext).isSome = true := by
    unfold folder_changes
    rw [hps2]
    exact scan_files_empty_isSome fs history2 name sect' _ _
  obtain ⟨fc2, hfold2⟩ := Option.isSome_iff_exists.mp htotal
  rw [hfold2]
  have hpast1' : (if false then some [] else lookupA history name) = some past := by
    simpa using hpast
  have hvisit1 : ∀ F ∈ get_files fs (GlobPattern.mk name ext),
      lookupA fc.1 (relpathUnder name F) =
        visitResult fs [] (PrereqState.mk [] [] []) past name F :=
    fun F hF => folder_changes_visit hwf hfold past hpast1' (Or.inl hpast) hF
  have hkeys1 := folder_changes_keys hfold
  obtain ⟨hdel1, _⟩ := folder_changes_deleted hfold past hpast1' hpnd
  have hvisit2 : ∀ F ∈ get_files fs (GlobPattern.mk name ext),
      lookupA fc2.1 (relpathUnder name F) =
        visitResult fs [] (PrereqState.mk [] [] []) sect' name F :=
    fun F hF => folder_changes_visit hwf hfold2 sect' hps2 (Or.inl hpast2) hF
  have hkeys2 := folder_changes_keys hfold2
  obtain ⟨hdel2, _⟩ := folder_changes_deleted hfold2 sect' hps2 hs_nd
  have hnof : ∀ F ∈ get_files fs (GlobPattern.mk name ext),
      lookupA fc2.1 (relpathUnder name F) = none := by
    intro F hF
    rw [hvisit2 F hF, visitResult_empty]
    have hrel_not_del : relpathUnder name F ∉ fc.2 := by
      intro hmem
      exact ((hdel1 _).mp hmem).2 F hF rfl
    rw [hs_keep _ hrel_not_del]
    cases hl : lookupA fc.1 (relpathUnder name F) with
    | some v =>
      have hv1 := hvisit1 F hF
      rw [hl, visitResult_empty] at hv1
      obtain ⟨fd, hfd, hmod⟩ := _get_changes_fresh hv1.symm
      show _get_changes fs F (some v) = none
      simp only [_get_changes, hfd]
      rw [if_neg (by rw [hmod]; exact lt_irrefl _)]
    | none =>
      have hv1 := hvisit1 F hF
      rw [hl, visitResult_empty] at hv1
      show _get_changes fs F (lookupA past (relpathUnder name F)) = none
      cases hp : lookupA past (relpathUnder name F) with
      | some fp =>
        rw [hp] at hv1
        exact hv1.symm
      | none =>
        rw [hp] at hv1
        obtain ⟨fd, hfd⟩ := Option.isSome_iff_exists.mp (get_files_mem_fs hF)
        simp [_get_changes, hfd] at hv1
  have hempty1 : fc2.1 = [] := by
    cases hc : fc2.1 with
    | nil => rfl
    | cons e rest =>
      exfalso
      have hk : (lookupA fc2.1 e.1).isSome = true := by
        rw [lookupA_isSome_iff, hc]
        simp
      obtain ⟨F, hF, hrel⟩ := hkeys2 _ hk
      have hno := hnof F hF
      rw [hrel] at hno
      rw [hno] at hk
      cases hk
  have hempty2 : fc2.2 = [] := by
    rw [List.eq_nil_iff_forall_not_mem]
    intro k hkmem
    obtain ⟨hkin, hnone⟩ := (hdel2 k).mp hkmem
    have hsome : (lookupA sect' k).isSome = true := (lookupA_isSome_iff _ _).mpr hkin
    by_cases hkdel : k ∈ fc.2
    · rw [hs_del k hkdel] at hsome
      cases hsome
    · rw [hs_keep k hkdel] at hsome
      cases hl : lookupA fc.1 k with
      | some v =>
        obtain ⟨F, hF, hrel⟩ := hkeys1 k (by rw [hl]; rfl)
        exact hnone F hF hrel
      | none =>
        rw [hl] at hsome
        have hkpast : k ∈ past.map Prod.fst := (lookupA_isSome_iff _ _).mp hsome
        by_cases hex : ∃ F ∈ get_files fs (GlobPattern.mk name ext),
            relpathUnder name F = k
        · obtain ⟨F, hF, hrel⟩ := hex
          exact hnone F hF hrel
        · push_neg at hex
          exact hkdel ((hdel1 k).mpr ⟨hkpast, hex⟩)
  obtain ⟨fc21, fc22⟩ := fc2
  simp only at hempty1 hempty2
  rw [hempty1, hempty2]

/-- One category of the idempotence argument: its reconciled section makes
the second scan empty, provided the section was non-empty (so the writes
were actually performed) or there was nothing to write. -/
theorem reconcile_one_cat {fs : FS} {history history2 : Store} {name ext : String}
    {fcX : FolderChanges} {sectX sectX' : FolderInfo}
    {resX : Option FolderInfo × List String × List String}
    (hwf : fs.wf)
    (hfold : folder_changes fs history [] (PrereqState.mk [] [] []) false
      name ext = some fcX)
    (hsect : lookupA history name = some sectX)
    (hnodupX : (sectX.map Prod.fst).Nodup)
    (hcase : sectX ≠ [] ∨ fcX.1 = [])
    (hproc : process_folder_changes fcX (some sectX) = some resX)
    (hres : resX.1 = some sectX')
    (hlook2 : lookupA history2 name = some sectX') :
    folder_changes fs history2 [] (PrereqState.mk [] [] []) false name ext =
      some ([], []) := by
  have hpastX : (if false then some [] else lookupA history name) = some sectX := by
    simpa using hsect
  by_cases hse0 : sectX = []
  · have hm : fcX.1 = [] := by
      rcases hcase with h | h
      · exact absurd hse0 h
      · exact h
    subst hse0
    rw [process_emptysec] at hproc
    injection hproc with hproc
    rw [← hproc] at hres
    have hs : sectX' = [] := (Option.some.inj hres).symm
    subst hs
    exact @second_scan_empty fs history history2 name ext fcX [] [] hwf hfold
      hsect (by simp) (fun k _ => rfl) (fun k _ => by simp [hm, lookupA])
      (by simp) hlook2
  · obtain ⟨hknd, _, _⟩ := folder_changes_wfparts hfold sectX hpastX hnodupX
    obtain ⟨_, _, sect'', hres'', hdel'', hkeep'', hnd''⟩ :=
      process_some_store hproc hknd hnodupX hse0
    have hse : sect'' = sectX' := by
      rw [hres''] at hres
      exact Option.some.inj hres
    subst hse
    exact second_scan_empty hwf hfold hsect hnodupX hdel'' hkeep'' hnd'' hlook2

/-- C4 (amended): With no dependency declarations, and a store in which
each category's section is non-empty or has nothing to persist (the
`if history:` guard silently skips every write into an empty section),
after an incremental scan's change set is reconciled and persisted, a
second incremental scan over the unchanged filesystem produces an empty
modified map and an empty deleted set for every category. -/
theorem claim_C4 {fs : FS} {history history2 : Store} {meta : MetaCfg}
    {all : List (String × FolderChanges)}
    (hdeps : meta.deps = []) (hwf : fs.wf) (hstore : StoreWf history)
    (hsec : ∀ name ext fc sect, (name, ext) ∈ categoryExts →
      lookupA all name = some fc → lookupA history name = some sect →
      sect ≠ [] ∨ fc.1 = [])
    (hgc : get_changes fs history meta false = some all)
    (hrec : reconcile_run all history = some history2) :
    get_changes fs history2 meta false =
      some [("templates", ([], [])), ("posts", ([], [])),
            ("assets", ([], [])), ("data", ([], []))] := by
  have hdt : build_dep_tree fs meta = [] := by
    rw [build_dep_tree, hdeps]
    rfl
  obtain ⟨ps, hps, t, p, a, d, ht, hp, ha, hd, hall⟩ := get_changes_eq hgc
  rw [hdt] at ht hp ha hd hps
  simp only [List.map_nil] at ht hp ha hd
  simp only [prereq_scan] at hps
  have hpse : ps = PrereqState.mk [] [] [] := (Option.some.inj hps).symm
  subst hpse
  subst hall
  unfold reconcile_run at hrec
  split at hrec
  · cases hrec
  · rename_i h1 hr1
    split at hrec
    · cases hrec
    · rename_i h2 hr2
      split at hrec
      · cases hrec
      · rename_i h3 hr3
        obtain ⟨fcT, sectT, resT, hfcT, hsectT, hprocT, sectT', hresT, h1eq⟩ :=
          reconcileCategory_eq hr1
        obtain ⟨fcA, sectA, resA, hfcA, hsectA, hprocA, sectA', hresA, h2eq⟩ :=
          reconcileCategory_eq hr2
        obtain ⟨fcP, sectP, resP, hfcP, hsectP, hprocP, sectP', hresP, h3eq⟩ :=
          reconcileCategory_eq hr3
        obtain ⟨fcD, sectD, resD, hfcD, hsectD, hprocD, sectD', hresD, h4eq⟩ :=
          reconcileCategory_eq hrec
        subst h1eq
        subst h2eq
        subst h3eq
        subst h4eq
        -- identify the change sets
        have hfcT' : fcT = t := by
          rw [lookupA_cons_self] at hfcT
          exact (Option.some.inj hfcT).symm
        have hfcA' : fcA = a := by
          rw [lookupA_cons_ne _ _ (by decide), lookupA_cons_ne _ _ (by decide),
            lookupA_cons_self] at hfcA
          exact (Option.some.inj hfcA).symm
        have hfcP' : fcP = p := by
          rw [lookupA_cons_ne _ _ (by decide), lookupA_cons_self] at hfcP
          exact (Option.some.inj hfcP).symm
        have hfcD' : fcD = d := by
          rw [lookupA_cons_ne _ _ (by decide), lookupA_cons_ne _ _ (by decide),
            lookupA_cons_ne _ _ (by decide), lookupA_cons_self] at hfcD
          exact (Option.some.inj hfcD).symm
        subst hfcT'
        subst hfcA'
        subst hfcP'
        subst hfcD'
        -- identify the sections read during reconciliation with the store
        have hsectA0 : lookupA history "assets" = some sectA := by
          rw [← hsectA, lookupA_insertA_ne _ _ (by decide)]
        have hsectP0 : lookupA history "posts" = some sectP := by
          rw [← hsectP, lookupA_insertA_ne _ _ (by decide),
            lookupA_insertA_ne _ _ (by decide)]
        have hsectD0 : lookupA history "data" = some sectD := by
          rw [← hsectD, lookupA_insertA_ne _ _ (by decide),
            lookupA_insertA_ne _ _ (by decide),
            lookupA_insertA_ne _ _ (by decide)]
        -- section lookups in the final store
        have hlookT : lookupA (insertA (insertA (insertA (insertA history
            "templates" sectT') "assets" sectA') "posts" sectP') "data" sectD')
            "templates" = some sectT' := by
          rw [lookupA_insertA_ne _ _ (by decide),
            lookupA_insertA_ne _ _ (by decide),
            lookupA_insertA_ne _ _ (by decide), lookupA_insertA_self]
        have hlookA : lookupA (insertA (insertA (insertA (insertA history
            "templates" sectT') "assets" sectA') "posts" sectP') "data" sectD')
            "assets" = some sectA' := by
          rw [lookupA_insertA_ne _ _ (by decide),
            lookupA_insertA_ne _ _ (by decide), lookupA_insertA_self]
        have hlookP : lookupA (insertA (insertA (insertA (insertA history
            "templates" sectT') "assets" sectA') "posts" sectP') "data" sectD')
            "posts" = some sectP' := by
          rw [lookupA_insertA_ne _ _ (by decide), lookupA_insertA_self]
        have hlookD : lookupA (insertA (insertA (insertA (insertA history
            "templates" sectT') "assets" sectA') "posts" sectP') "data" sectD')
            "data" = some sectD' := lookupA_insertA_self _ _ _
        -- the persistence guard holds for each category
        have hcaseT : sectT ≠ [] ∨ fcT.1 = [] :=
          hsec "templates" ".html" fcT sectT (by decide) hfcT hsectT
        have hcaseA : sectA ≠ [] ∨ fcA.1 = [] :=
          hsec "assets" "" fcA sectA (by decide) hfcA hsectA0
        have hcaseP : sectP ≠ [] ∨ fcP.1 = [] :=
          hsec "posts" ".md" fcP sectP (by decide) hfcP hsectP0
        have hcaseD : sectD ≠ [] ∨ fcD.1 = [] :=
          hsec "data" ".json" fcD sectD (by decide) hfcD hsectD0
        -- second scans
        have hT2 := reconcile_one_cat hwf ht hsectT
          (hstore (("templates", sectT)) (mem_of_lookupA hsectT))
          hcaseT hprocT hresT hlookT
        have hA2 := reconcile_one_cat hwf ha hsectA0
          (hstore (("assets", sectA)) (mem_of_lookupA hsectA0))
          hcaseA hprocA hresA hlookA
        have hP2 := reconcile_one_cat hwf hp hsectP0
          (hstore (("posts", sectP)) (mem_of_lookupA hsectP0))
          hcaseP hprocP hresP hlookP
        have hD2 := reconcile_one_cat hwf hd hsectD0
          (hstore (("data", sectD)) (mem_of_lookupA hsectD0))
          hcaseD hprocD hresD hlookD
        simp only [get_changes, hdt, List.map_nil, prereq_scan]
        rw [hT2, hP2, hA2, hD2]

/-- Counterexample to C4 as stated, in two independent ways.  First, with a
dependency declared, a file that is both forced and independently changed
has its old fingerprint persisted, so the second incremental scan over the
unchanged filesystem reports `posts\a.md` as modified again.  Second, even
with no dependencies at all, starting from the all-empty store that
`create` writes, a new `posts\a.md` is reported modified, but the
`if history:` guard treats the empty `posts` section as falsy and skips
the write: reconciliation returns the store unchanged, so the scan would
report the very same non-empty change set again. -/
theorem claim_C4_counterexample :
    get_changes (FS.mk [("templates\\base.html", FileData.mk 2 "B2"),
        ("posts\\a.md", FileData.mk 2 "A2")])
      [("templates", [("base.html", FileInfo.mk 1 "B1")]),
       ("posts", [("a.md", FileInfo.mk 1 "A1")]), ("assets", []), ("data", [])]
      (MetaCfg.mk [(GlobPattern.mk "posts" ".md", ["templates/base.html"])])
      false =
      some [("templates", ([("base.html", FileInfo.mk 2 "B2")], [])),
            ("posts", ([("a.md", FileInfo.mk 1 "A1")], [])),
            ("assets", ([], [])), ("data", ([], []))] ∧
    reconcile_run
      [("templates", ([("base.html", FileInfo.mk 2 "B2")], [])),
       ("posts", ([("a.md", FileInfo.mk 1 "A1")], [])),
       ("assets", ([], [])), ("data", ([], []))]
      [("templates", [("base.html", FileInfo.mk 1 "B1")]),
       ("posts", [("a.md", FileInfo.mk 1 "A1")]), ("assets", []), ("data", [])] =
      some [("templates", [("base.html", FileInfo.mk 2 "B2")]),
            ("posts", [("a.md", FileInfo.mk 1 "A1")]),
            ("assets", []), ("data", [])] ∧
    get_changes (FS.mk [("templates\\base.html", FileData.mk 2 "B2"),
        ("posts\\a.md", FileData.mk 2 "A2")])
      [("templates", [("base.html", FileInfo.mk 2 "B2")]),
       ("posts", [("a.md", FileInfo.mk 1 "A1")]), ("assets", []), ("data", [])]
      (MetaCfg.mk [(GlobPattern.mk "posts" ".md", ["templates/base.html"])])
      false =
      some [("templates", ([], [])),
            ("posts", ([("a.md", FileInfo.mk 2 "A2")], [])),
            ("assets", ([], [])), ("data", ([], []))] ∧
    lookupA [("templates", (([], []) : FolderChanges)),
             ("posts", ([("a.md", FileInfo.mk 2 "A2")], [])),
             ("assets", ([], [])), ("data", ([], []))] "posts" =
      some (([("a.md", FileInfo.mk 2 "A2")], []) : FolderChanges) ∧
    ¬ ((([("a.md", FileInfo.mk 2 "A2")], []) : FolderChanges).1 = []) ∧
    get_changes (FS.mk [("posts\\new.md", FileData.mk 1 "N")])
      [("templates", []), ("posts", []), ("assets", []), ("data", [])]
      (MetaCfg.mk []) false =
      some [("templates", ([], [])),
            ("posts", ([("new.md", FileInfo.mk 1 "N")], [])),
            ("assets", ([], [])), ("data", ([], []))] ∧
    reconcile_run
      [("templates", ([], [])),
       ("posts", ([("new.md", FileInfo.mk 1 "N")], [])),
       ("assets", ([], [])), ("data", ([], []))]
      [("templates", []), ("posts", []), ("assets", []), ("data", [])] =
      some [("templates", []), ("posts", []), ("assets", []), ("data", [])] ∧
    ¬ ((([("new.md", FileInfo.mk 1 "N")], []) : FolderChanges).1 = []) := by
  exact ⟨rfl, rfl, rfl, rfl, by decide, rfl, rfl, by decide⟩

/-- Witness for C4 (amended): a modified `posts\a.md` is reconciled into a
non-empty `posts` section and the second scan is empty everywhere. -/
theorem claim_C4_witness :
    (MetaCfg.mk []).deps = [] ∧
    (FS.mk [("posts\\a.md", FileData.mk 2 "A2")]).wf ∧
    StoreWf [("templates", []), ("posts", [("a.md", FileInfo.mk 1 "A1")]),
      ("assets", []), ("data", [])] ∧
    (∀ name ext fc sect, (name, ext) ∈ categoryExts →
      lookupA [("templates", (([], []) : FolderChanges)),
               ("posts", ([("a.md", FileInfo.mk 2 "A2")], [])),
               ("assets", ([], [])), ("data", ([], []))] name = some fc →
      lookupA [("templates", ([] : FolderInfo)),
               ("posts", [("a.md", FileInfo.mk 1 "A1")]),
               ("assets", []), ("data", [])] name = some sect →
      sect ≠ [] ∨ fc.1 = []) ∧
    get_changes (FS.mk [("posts\\a.md", FileData.mk 2 "A2")])
      [("templates", []), ("posts", [("a.md", FileInfo.mk 1 "A1")]),
       ("assets", []), ("data", [])] (MetaCfg.mk []) false =
      some [("templates", ([], [])),
            ("posts", ([("a.md", FileInfo.mk 2 "A2")], [])),
            ("assets", ([], [])), ("data", ([], []))] ∧
    reconcile_run
      [("templates", ([], [])),
       ("posts", ([("a.md", FileInfo.mk 2 "A2")], [])),
       ("assets", ([], [])), ("data", ([], []))]
      [("templates", []), ("posts", [("a.md", FileInfo.mk 1 "A1")]),
       ("assets", []), ("data", [])] =
      some [("templates", []), ("posts", [("a.md", FileInfo.mk 2 "A2")]),
            ("assets", []), ("data", [])] ∧
    get_changes (FS.mk [("posts\\a.md", FileData.mk 2 "A2")])
      [("templates", []), ("posts", [("a.md", FileInfo.mk 2 "A2")]),
       ("assets", []), ("data", [])] (MetaCfg.mk []) false =
      some [("templates", ([], [])), ("posts", ([], [])),
            ("assets", ([], [])), ("data", ([], []))] := by
  have hwf : (FS.mk [("posts\\a.md", FileData.mk 2 "A2")]).wf := by
    unfold FS.wf
    decide
  have hstore : StoreWf [("templates", []),
      ("posts", [("a.md", FileInfo.mk 1 "A1")]), ("assets", []), ("data", [])] := by
    unfold StoreWf
    decide
  have hsec : ∀ name ext fc sect, (name, ext) ∈ categoryExts →
      lookupA [("templates", (([], []) : FolderChanges)),
               ("posts", ([("a.md", FileInfo.mk 2 "A2")], [])),
               ("assets", ([], [])), ("data", ([], []))] name = some fc →
      lookupA [("templates", ([] : FolderInfo)),
               ("posts", [("a.md", FileInfo.mk 1 "A1")]),
               ("assets", []), ("data", [])] name = some sect →
      sect ≠ [] ∨ fc.1 = [] := by
    intro name ext fc sect hmem hfc hsect
    fin_cases hmem
    · exact Or.inr (by rw [← Option.some.inj hfc])
    · exact Or.inl (by rw [← Option.some.inj hsect]; simp)
    · exact Or.inr (by rw [← Option.some.inj hfc])
    · exact Or.inr (by rw [← Option.some.inj hfc])
  refine ⟨rfl, hwf, hstore, hsec, rfl, rfl, ?_⟩
  exact @claim_C4 (FS.mk [("posts\\a.md", FileData.mk 2 "A2")])
    [("templates", []), ("posts", [("a.md", FileInfo.mk 1 "A1")]),
     ("assets", []), ("data", [])]
    [("templates", []), ("posts", [("a.md", FileInfo.mk 2 "A2")]),
     ("assets", []), ("data", [])]
    (MetaCfg.mk [])
    [("templates", ([], [])),
     ("posts", ([("a.md", FileInfo.mk 2 "A2")], [])),
     ("assets", ([], [])), ("data", ([], []))]
    rfl hwf hstore hsec rfl rfl

end StaticPy
